import Mathlib

/-!
Verification development for the markdown index generator
(src/blogs_recreation/update.py).

Python strings are modelled as lists of characters (`Str`).  The regular
expressions used by the source are simple delimiter patterns; each one is
embedded as an explicit scanner (`tryLink`, `tryImage`, ...) returning, when
the pattern matches at the head of the string, the replacement text of the
match together with the unconsumed remainder.  `re.sub` is modelled by
`subBy`, a leftmost-match scan, and `re.search` by `searchBy`.  Whitespace is
modelled by the six ASCII whitespace characters recognised by Python's `\s`
(the Unicode extras are irrelevant to the documents and claims considered).
File sizes, rounded by the source to two decimals of a kilobyte, are
modelled exactly as counts of hundredths of a kilobyte.
-/

/-- Python strings are modelled as lists of characters. -/
abbrev Str := List Char

/-- Whitespace characters recognised by Python's regex class and str.strip
(ASCII part). -/
def isWs (c : Char) : Bool :=
  c = ' ' || c = '\t' || c = '\n' || c = '\x0b' || c = '\x0c' || c = '\r'

/-- Model of Python str.strip on the right end. -/
def rstripWs (cs : Str) : Str :=
  ((cs.reverse).dropWhile isWs).reverse

/-- Model of Python str.strip (both ends). -/
def pyStrip (cs : Str) : Str :=
  (rstripWs cs).dropWhile isWs

/-- Model of Python content.split given the newline separator: n newline
characters produce n+1 fields, empty fields included. -/
def splitNl : Str → List Str
  | [] => [[]]
  | c :: cs =>
    if c = '\n' then [] :: splitNl cs
    else
      match splitNl cs with
      | l :: ls => (c :: l) :: ls
      | [] => [[c]]

/-- Scanner for the link pattern: bracket label bracket paren target paren,
label and target nonempty, label without closing bracket, target without
closing paren.  On a match at the head, returns the replacement (the label)
and the remainder after the match. -/
def tryLink (cs : Str) : Option (Str × Str) :=
  match cs with
  | c :: t =>
    if c = '[' then
      let lab := t.takeWhile (fun x => x ≠ ']')
      match t.dropWhile (fun x => x ≠ ']') with
      | c1 :: c2 :: v =>
        if c1 = ']' ∧ c2 = '(' then
          if lab = [] then none
          else
            let tgt := v.takeWhile (fun x => x ≠ ')')
            match v.dropWhile (fun x => x ≠ ')') with
            | c3 :: w => if c3 = ')' then (if tgt = [] then none else some (lab, w)) else none
            | [] => none
        else none
      | _ => none
    else none
  | [] => none

/-- Scanner for the image pattern: bang bracket alt bracket paren target
paren; the alt text may be empty; replacement is empty. -/
def tryImage (cs : Str) : Option (Str × Str) :=
  match cs with
  | c0 :: c :: t =>
    if c0 = '!' ∧ c = '[' then
      match t.dropWhile (fun x => x ≠ ']') with
      | c1 :: c2 :: v =>
        if c1 = ']' ∧ c2 = '(' then
          let tgt := v.takeWhile (fun x => x ≠ ')')
          match v.dropWhile (fun x => x ≠ ')') with
          | c3 :: w => if c3 = ')' then (if tgt = [] then none else some ([], w)) else none
          | [] => none
        else none
      | _ => none
    else none
  | _ => none

/-- Scanner for the double-star emphasis pattern. -/
def tryBold (cs : Str) : Option (Str × Str) :=
  match cs with
  | c0 :: c1 :: t =>
    if c0 = '*' ∧ c1 = '*' then
      let mid := t.takeWhile (fun x => x ≠ '*')
      if mid = [] then none
      else
        match t.dropWhile (fun x => x ≠ '*') with
        | d0 :: d1 :: u => if d0 = '*' ∧ d1 = '*' then some (mid, u) else none
        | _ => none
    else none
  | _ => none

/-- Scanner for the single-star emphasis pattern. -/
def tryItalic (cs : Str) : Option (Str × Str) :=
  match cs with
  | c0 :: t =>
    if c0 = '*' then
      let mid := t.takeWhile (fun x => x ≠ '*')
      if mid = [] then none
      else
        match t.dropWhile (fun x => x ≠ '*') with
        | d0 :: u => if d0 = '*' then some (mid, u) else none
        | [] => none
    else none
  | [] => none

/-- Scanner for the backtick inline-code pattern. -/
def tryCode (cs : Str) : Option (Str × Str) :=
  match cs with
  | c0 :: t =>
    if c0 = '`' then
      let mid := t.takeWhile (fun x => x ≠ '`')
      if mid = [] then none
      else
        match t.dropWhile (fun x => x ≠ '`') with
        | d0 :: u => if d0 = '`' then some (mid, u) else none
        | [] => none
    else none
  | [] => none

/-- Scanner for the double-tilde strikethrough pattern. -/
def tryStrike (cs : Str) : Option (Str × Str) :=
  match cs with
  | c0 :: c1 :: t =>
    if c0 = '~' ∧ c1 = '~' then
      let mid := t.takeWhile (fun x => x ≠ '~')
      if mid = [] then none
      else
        match t.dropWhile (fun x => x ≠ '~') with
        | d0 :: d1 :: u => if d0 = '~' ∧ d1 = '~' then some (mid, u) else none
        | _ => none
    else none
  | _ => none

/-- Scanner for the angle-bracket tag pattern; replacement is empty. -/
def tryTag (cs : Str) : Option (Str × Str) :=
  match cs with
  | c0 :: t =>
    if c0 = '<' then
      let mid := t.takeWhile (fun x => x ≠ '>')
      if mid = [] then none
      else
        match t.dropWhile (fun x => x ≠ '>') with
        | d0 :: u => if d0 = '>' then some ([], u) else none
        | [] => none
    else none
  | [] => none

/-- Scanner for the html-comment pattern: the greedy class without the
closing angle forces the matched content to end with two dashes right before
the first closing angle, and the content before those dashes is nonempty. -/
def tryComment (cs : Str) : Option (Str × Str) :=
  match cs with
  | c0 :: c1 :: c2 :: c3 :: t =>
    if c0 = '<' ∧ c1 = '!' ∧ c2 = '-' ∧ c3 = '-' then
      let q := t.takeWhile (fun x => x ≠ '>')
      match t.dropWhile (fun x => x ≠ '>') with
      | d0 :: u =>
        if d0 = '>' then
          match q.reverse with
          | e0 :: e1 :: m =>
            if e0 = '-' ∧ e1 = '-' ∧ m ≠ [] then some ([], u) else none
          | _ => none
        else none
      | [] => none
    else none
  | _ => none

/-- Second stage shared by the link and image scanners: paren target paren,
target nonempty and without closing paren, keeping a fixed replacement. -/
def linkTail (lab v : Str) : Option (Str × Str) :=
  if v.takeWhile (fun x => x ≠ ')') = [] then none
  else if v.dropWhile (fun x => x ≠ ')') = [] then none
  else some (lab, (v.dropWhile (fun x => x ≠ ')')).tail)

/-- Fueled leftmost-match substitution: at each position try the scanner; on
a match emit the replacement and continue after the match, otherwise keep the
character and move one position.  This is the semantics of re.sub for the
patterns above. -/
def scanSubF (t : Str → Option (Str × Str)) : Nat → Str → Str
  | _, [] => []
  | 0, cs => cs
  | n + 1, c :: cs =>
    match t (c :: cs) with
    | some (o, r) => o ++ scanSubF t n r
    | none => c :: scanSubF t n cs

/-- Leftmost-match substitution with enough fuel for the whole string. -/
def subBy (t : Str → Option (Str × Str)) (cs : Str) : Str :=
  scanSubF t cs.length cs

/-- Whitespace-run squeezer: the substitution of every maximal whitespace run
by a single space (the penultimate transformation of the cleaner). -/
def squeezeWs : Str → Str
  | [] => []
  | c :: cs =>
    if isWs c then
      match cs with
      | [] => [' ']
      | d :: _ => if isWs d then squeezeWs cs else ' ' :: squeezeWs cs
    else c :: squeezeWs cs

/-- Final whitespace normalisation of the cleaner: collapse runs, then strip
both ends. -/
def collapseWs (cs : Str) : Str :=
  pyStrip (squeezeWs cs)

/-- Model of clean_markdown_format: the eight markup substitutions in source
order, then whitespace collapsing; the empty string is returned unchanged. -/
def clean_markdown_format (text : Str) : Str :=
  if text = [] then text
  else
    collapseWs (subBy tryComment (subBy tryTag (subBy tryStrike (subBy tryCode
      (subBy tryItalic (subBy tryBold (subBy tryImage (subBy tryLink text))))))))

/-- A string is markup-free when every one of the cleaner's eight
substitutions leaves it unchanged. -/
def noMarkup (s : Str) : Prop :=
  subBy tryLink s = s ∧ subBy tryImage s = s ∧ subBy tryBold s = s ∧
  subBy tryItalic s = s ∧ subBy tryCode s = s ∧ subBy tryStrike s = s ∧
  subBy tryTag s = s ∧ subBy tryComment s = s

example : clean_markdown_format ("![alt](target)".data) = ("!alt".data) := by decide
example : clean_markdown_format ("![](x.png)".data) = [] := by decide
example : clean_markdown_format ("<br>".data) = [] := by decide
example : clean_markdown_format ("Some **bold** intro.".data) = ("Some bold intro.".data) := by decide
example : clean_markdown_format ("[a]<x>(b)".data) = ("[a](b)".data) := by decide
example : clean_markdown_format ("A<!---->B".data) = ("AB".data) := by decide
example : clean_markdown_format ("a  b\t c".data) = ("a b c".data) := by decide

/-- Case-insensitive match of one pattern letter (re.IGNORECASE). -/
def ciIs (pat : Char) (c : Char) : Prop := c.toLower = pat

instance (pat c : Char) : Decidable (ciIs pat c) := by
  unfold ciIs; infer_instance

/-- Group capture for the paren part shared by the first two toc patterns:
open paren, a nonempty run without closing paren, closing paren. -/
def parenGroup (v : Str) : Option Str :=
  match v with
  | p :: v' =>
    if p = '(' then
      let g := v'.takeWhile (fun x => x ≠ ')')
      match v'.dropWhile (fun x => x ≠ ')') with
      | q :: _ => if q = ')' then (if g = [] then none else some g) else none
      | [] => none
    else none
  | [] => none

/-- Scanner for the second toc pattern: bracket toc bracket, optional
whitespace, then the paren group. -/
def tryToc2 (cs : Str) : Option Str :=
  match cs with
  | b :: c1 :: c2 :: c3 :: d :: rest =>
    if b = '[' ∧ ciIs 't' c1 ∧ ciIs 'o' c2 ∧ ciIs 'c' c3 ∧ d = ']' then
      parenGroup (rest.dropWhile isWs)
    else none
  | _ => none

/-- Scanner for the first toc pattern: at sign followed by the bracket-toc
shape of the second pattern. -/
def tryToc1 (cs : Str) : Option Str :=
  match cs with
  | a :: rest => if a = '@' then tryToc2 rest else none
  | [] => none

/-- Group capture for the tail of the comment-style toc patterns: greedy
whitespace, then a nonempty run without an opening angle; when everything
after the whitespace starts with an angle (or is empty), the regex engine
backtracks and captures the last whitespace character. -/
def tailGroup (rest : Str) : Option Str :=
  let w := rest.takeWhile isWs
  match rest.dropWhile isWs with
  | c :: r' =>
    if c ≠ '<' then some ((c :: r').takeWhile (fun x => x ≠ '<'))
    else
      match w.getLast? with
      | some l => some [l]
      | none => none
  | [] =>
    match w.getLast? with
    | some l => some [l]
    | none => none

/-- Scanner for the third toc pattern: the literal comment-toc marker
followed by the tail group. -/
def tryToc3 (cs : Str) : Option Str :=
  match cs with
  | a0 :: a1 :: a2 :: a3 :: c1 :: c2 :: c3 :: b0 :: b1 :: b2 :: rest =>
    if a0 = '<' ∧ a1 = '!' ∧ a2 = '-' ∧ a3 = '-' ∧ ciIs 't' c1 ∧ ciIs 'o' c2 ∧
        ciIs 'c' c3 ∧ b0 = '-' ∧ b1 = '-' ∧ b2 = '>' then
      tailGroup rest
    else none
  | _ => none

/-- Scanner for the fourth toc pattern: comment-toc marker with optional
inner whitespace, followed by the tail group. -/
def tryToc4 (cs : Str) : Option Str :=
  match cs with
  | a0 :: a1 :: a2 :: a3 :: rest =>
    if a0 = '<' ∧ a1 = '!' ∧ a2 = '-' ∧ a3 = '-' then
      match rest.dropWhile isWs with
      | c1 :: c2 :: c3 :: rest2 =>
        if ciIs 't' c1 ∧ ciIs 'o' c2 ∧ ciIs 'c' c3 then
          match rest2.dropWhile isWs with
          | b0 :: b1 :: b2 :: rest3 =>
            if b0 = '-' ∧ b1 = '-' ∧ b2 = '>' then tailGroup rest3 else none
          | _ => none
        else none
      | _ => none
    else none
  | _ => none

/-- Model of re.search: try the scanner at every position left to right and
return the first group found. -/
def searchBy (t : Str → Option Str) : Str → Option Str
  | [] => none
  | c :: cs =>
    match t (c :: cs) with
    | some g => some g
    | none => searchBy t cs

/-- Removal of one leading opening paren and one trailing closing paren, the
effect of the anchored alternation substitution applied to the toc title. -/
def stripOuterParens (t : Str) : Str :=
  let t1 := match t with
    | c :: r => if c = '(' then r else t
    | [] => t
  match t1.getLast? with
  | some l => if l = ')' then t1.dropLast else t1
  | none => t1

/-- One toc pattern applied to the window: search, strip, unparenthesise;
an empty result does not stop the chain. -/
def tocResult (pat : Str → Option Str) (c : Str) : Option Str :=
  match searchBy pat c with
  | none => none
  | some g =>
    let ti := stripOuterParens (pyStrip g)
    if ti = [] then none else some ti

/-- First step of the title chain: the four toc patterns in source order. -/
def tocStep (c : Str) : Option Str :=
  match tocResult tryToc1 c with
  | some t => some t
  | none =>
    match tocResult tryToc2 c with
    | some t => some t
    | none =>
      match tocResult tryToc3 c with
      | some t => some t
      | none => tocResult tryToc4 c

/-- Capture of the heading regex after the marker run: one or more
whitespace characters then a nonempty greedy remainder; when the remainder
is all whitespace the required-text group backtracks to the last character. -/
def captureBody (cs : Str) : Option Str :=
  match cs with
  | c :: rest =>
    if isWs c ∧ rest ≠ [] then
      match rest.dropWhile isWs with
      | [] => some [rest.getLastD c]
      | r :: rs => some (r :: rs)
    else none
  | [] => none

/-- Match of the anchored heading regex with the given number of marker
characters, returning the captured text. -/
def matchHashes : Nat → Str → Option Str
  | 0, cs => captureBody cs
  | n + 1, cs =>
    match cs with
    | c :: cs' => if c = '#' then matchHashes n cs' else none
    | [] => none

/-- Test used for the fenced-code toggle: the stripped line starts with the
triple-backtick marker. -/
def fenceLine (l : Str) : Bool :=
  List.isPrefixOf ("```".data) (pyStrip l)

/-- Scan of the lines for the first heading of the given level outside
fenced regions whose stripped captured text cleans to something nonempty
(methods two and three of the title chain). -/
def findHeading (lvl : Nat) : Bool → List Str → Option Str
  | _, [] => none
  | inCode, l :: ls =>
    if fenceLine l then findHeading lvl (!inCode) ls
    else if inCode then findHeading lvl inCode ls
    else
      match matchHashes lvl l with
      | some g =>
        let t := clean_markdown_format (pyStrip g)
        if t = [] then findHeading lvl inCode ls else some t
      | none => findHeading lvl inCode ls

/-- Heads that disqualify a stripped line from the plausible-body-line
step. -/
def bodySkipHead (c : Char) : Bool :=
  c = '|' || c = '>' || c = '-' || c = '*' || c = '+' || c = '`'

/-- Test for a complete html-comment line. -/
def isCommentLine (l : Str) : Bool :=
  List.isPrefixOf ("<!--".data) l && List.isSuffixOf ("-->".data) l

/-- Method four of the title chain: first plausible body line, cleaned; a
cleaned line of fewer than 150 characters is returned truncated to 100. -/
def findBody : Bool → List Str → Option Str
  | _, [] => none
  | inCode, l0 :: ls =>
    let l := pyStrip l0
    if List.isPrefixOf ("```".data) l then findBody (!inCode) ls
    else if inCode then findBody inCode ls
    else if l = [] then findBody inCode ls
    else if bodySkipHead (l.headD ' ') then findBody inCode ls
    else if isCommentLine l then findBody inCode ls
    else
      let cl := clean_markdown_format l
      if cl.length < 150 then some (cl.take 100) else findBody inCode ls

/-- Characters after the last path separator. -/
def lastComponent (path : Str) : Str :=
  ((path.reverse).takeWhile (fun c => c ≠ '/')).reverse

/-- Model of the splitext name part: the extension starts at the last dot,
except when every character before that dot is itself a dot. -/
def dropExt (b : Str) : Str :=
  match (b.reverse).dropWhile (fun c => c ≠ '.') with
  | d :: rest => if d = '.' ∧ rest.any (fun c => c ≠ '.') then rest.reverse else b
  | [] => b

/-- Model of str.capitalize: first character uppercased, the rest
lowercased. -/
def capitalizeW : Str → Str
  | [] => []
  | c :: rest => c.toUpper :: rest.map Char.toLower

/-- Helper for whitespace splitting, accumulating the current word in
reverse. -/
def splitWsAux : Str → Str → List Str
  | [], cur => if cur = [] then [] else [cur.reverse]
  | c :: cs, cur =>
    if isWs c then
      (if cur = [] then splitWsAux cs [] else cur.reverse :: splitWsAux cs [])
    else splitWsAux cs (c :: cur)

/-- Model of str.split with no separator: split on whitespace runs, no empty
words. -/
def pySplitWs (cs : Str) : List Str :=
  splitWsAux cs []

/-- Join with single spaces. -/
def joinWords : List Str → Str
  | [] => []
  | [w] => w
  | w :: ws => w ++ ' ' :: joinWords ws

/-- Method five of the title chain: beautified filename — basename without
extension, separator characters replaced by spaces, words capitalized. -/
def prettyFilename (path : Str) : Str :=
  let name := dropExt (lastComponent path)
  let replaced := name.map (fun c => if c = '-' ∨ c = '_' ∨ c = '.' then ' ' else c)
  joinWords ((pySplitWs replaced).map capitalizeW)

/-- Model of extract_title_from_md on the already-read document text: only
the first 3000 characters are inspected; the fallback chain is toc
directive, first level-1 heading, first level-2 heading, first plausible
body line, beautified filename. -/
def extract_title_from_md (content : Str) (filepath : Str) : Str :=
  let c := content.take 3000
  let lines := splitNl c
  match tocStep c with
  | some t => t
  | none =>
    match findHeading 1 false lines with
    | some t => t
    | none =>
      match findHeading 2 false lines with
      | some t => t
      | none =>
        match findBody false lines with
        | some t => t
        | none => prettyFilename filepath

/-- One detected heading of the outline. -/
structure HeadingEntry where
  level : Nat
  title : Str
  line_number : Nat
deriving DecidableEq, Repr

/-- Heading test of the outline extractor: levels one to six tried in
increasing order, first match wins. -/
def firstLevelMatch (l : Str) : Option (Nat × Str) :=
  (List.range 6).findSome? (fun k => (matchHashes (k + 1) l).map (fun g => (k + 1, g)))

/-- Line loop of the outline extractor with running zero-based index and
fenced-region toggle. -/
def outlineLoop : Nat → Bool → List Str → List HeadingEntry
  | _, _, [] => []
  | i, inCode, l :: ls =>
    if fenceLine l then outlineLoop (i + 1) (!inCode) ls
    else if inCode then outlineLoop (i + 1) inCode ls
    else
      match firstLevelMatch l with
      | some (lvl, g) =>
        { level := lvl, title := clean_markdown_format (pyStrip g), line_number := i + 1 } ::
          outlineLoop (i + 1) inCode ls
      | none => outlineLoop (i + 1) inCode ls

/-- Model of extract_all_titles on the already-read document text. -/
def extract_all_titles (content : Str) : List HeadingEntry :=
  outlineLoop 0 false (splitNl content)

example : extract_title_from_md ("<br>".data) ("a.md".data) = [] := by decide
example : extract_title_from_md [] ("-.md".data) = [] := by decide
example : extract_title_from_md ("<!--toc-->( )".data) ("a.md".data) = [' '] := by decide
example : extract_title_from_md ("Hello\n@[toc](My Title)\n# Other\n## Two".data) ("x.md".data) = ("My Title".data) := by decide
example : extract_title_from_md ("```\n# fake\n```\n# Heading One\nrest".data) ("x.md".data) = ("Heading One".data) := by decide
example : extract_title_from_md ("# <br>\n# Real".data) ("p.md".data) = ("Real".data) := by decide
example : extract_title_from_md [] ("my-cool_post.v2.md".data) = ("My Cool Post V2".data) := by decide
example : extract_all_titles ("# <br>".data) = [{ level := 1, title := [], line_number := 1 }] := by decide
example : extract_all_titles ("# A\n```\n## fake\n```\n## B".data) =
    [{ level := 1, title := ['A'], line_number := 1 }, { level := 2, title := ['B'], line_number := 5 }] := by decide
example : extract_all_titles ("####### seven\n#  \n# ".data) = [{ level := 1, title := [], line_number := 2 }] := by decide

/-- Aggregated facts about one source document, as assembled per file by the
report generator.  The size in kilobytes is rounded to two decimals by the
source, so it is modelled exactly as a count of hundredths of a kilobyte. -/
structure Article where
  filename : Str
  title : Str
  modify_time : Str
  size : Nat
  description : Str
  word_count : Nat
  titles : List HeadingEntry
  full_path : Str
deriving DecidableEq, Repr

/-- Lexicographic comparison of strings by code point, the comparison Python
uses on the formatted modification times. -/
def strLtB : Str → Str → Bool
  | [], [] => false
  | [], _ :: _ => true
  | _ :: _, [] => false
  | a :: as, b :: bs => if a = b then strLtB as bs else decide (a < b)

/-- Stable descending insertion by modification time: the new element moves
past elements with strictly greater key and stops in front of the first
element with a key less than or equal to its own. -/
def insertDesc (a : Article) : List Article → List Article
  | [] => [a]
  | b :: bs =>
    if strLtB a.modify_time b.modify_time then b :: insertDesc a bs
    else a :: b :: bs

/-- Model of list.sort with the modification-time key and reverse order: the
unique stable descending sort. -/
def sortArticles : List Article → List Article
  | [] => []
  | a :: as => insertDesc a (sortArticles as)

/-- Decimal digits of a natural number. -/
def natStr (n : Nat) : Str :=
  Nat.toDigits 10 n

/-- Helper walking the reversed digits, inserting a comma after every group
of three. -/
def commaAux : Nat → Str → Str
  | _, [] => []
  | k, c :: cs => if k = 3 then ',' :: c :: commaAux 1 cs else c :: commaAux (k + 1) cs

/-- Model of the comma-grouping integer format. -/
def fmtComma (n : Nat) : Str :=
  (commaAux 0 (natStr n).reverse).reverse

/-- Rendering of a size given in hundredths of a kilobyte the way Python
prints a two-decimal float: integer part, then the fraction with a trailing
zero dropped but at least one fractional digit kept. -/
def qRepr (hn : Nat) : Str :=
  natStr (hn / 100) ++ '.' ::
    (if hn % 100 % 10 = 0 then natStr (hn % 100 / 10)
     else if hn % 100 < 10 then '0' :: natStr (hn % 100)
     else natStr (hn % 100))

/-- Rendering of a total size in hundredths with one decimal digit, rounding
half to even, the fixed-point float format of the statistics block. -/
def fmt1f (hn : Nat) : Str :=
  let t := hn / 10
  let r := hn % 10
  let n := if r < 5 then t else if 5 < r then t + 1 else if t % 2 = 0 then t else t + 1
  natStr (n / 10) ++ '.' :: natStr (n % 10)

/-- Indentation of an outline item: two spaces per level above one. -/
def indentOf (level : Nat) : Str :=
  (List.replicate (level - 1) ("  ".data)).flatten

/-- One rendered outline item of a detail section. -/
def outlineItem (e : HeadingEntry) : Str :=
  indentOf e.level ++ ("- ".data) ++ e.title ++ ['\n']

/-- Rendered outline of a detail section: at most the first ten entries,
with a note counting the omitted ones. -/
def outlineBlock (ts : List HeadingEntry) : Str :=
  ("**文章大纲**:\n\n".data) ++ ((ts.take 10).map outlineItem).flatten ++
    (if ts.length > 10 then ("  ... 还有 ".data) ++ natStr (ts.length - 10) ++ (" 个小节\n".data)
     else [])

/-- One per-document detail section of the report. -/
def detailSection (a : Article) : Str :=
  ("### [".data) ++ a.title ++ ("](./".data) ++ a.filename ++ (")\n\n".data) ++
  ("> 📝 **文件**: `".data) ++ a.filename ++ ("`\n".data) ++
  ("> 🕒 **更新**: ".data) ++ a.modify_time ++ ("\n".data) ++
  ("> 📊 **统计**: ".data) ++ natStr a.word_count ++ ("字, ".data) ++ qRepr a.size ++ ("KB\n\n".data) ++
  (if a.description ≠ [] then ("**摘要**: ".data) ++ a.description ++ ("\n\n".data) else []) ++
  (if a.titles ≠ [] then outlineBlock a.titles else ("> *（本文无章节标题）*\n".data)) ++
  ("\n---\n\n".data)

/-- One row of the listing table. -/
def listingRow (idx : Nat) (a : Article) : Str :=
  ("| ".data) ++ natStr idx ++ (" | **".data) ++ a.title ++ ("** | `".data) ++ a.filename ++
  ("` | ".data) ++ a.modify_time ++ (" | ".data) ++ natStr a.word_count ++ ("字 | ".data) ++
  qRepr a.size ++ ("KB | [阅读](./".data) ++ a.filename ++ (") |\n".data)

/-- Rows of the listing table with a running one-based index. -/
def rowsFrom : Nat → List Article → Str
  | _, [] => []
  | i, a :: as => listingRow i a ++ rowsFrom (i + 1) as

/-- Sum of the word counts. -/
def totalWords (as : List Article) : Nat :=
  (as.map (fun a => a.word_count)).sum

/-- Sum of the sizes, in hundredths of a kilobyte. -/
def totalSize (as : List Article) : Nat :=
  (as.map (fun a => a.size)).sum

/-- Average word count: the conditional expression guards the division so the
empty set yields zero without dividing. -/
def avgWords (as : List Article) : Nat :=
  match as with
  | [] => 0
  | _ :: _ => totalWords as / as.length

/-- Most recent modification time field of the statistics block: the head of
the sorted list, or the placeholder for the empty set. -/
def recentTime (as : List Article) : Str :=
  match as with
  | [] => ("无".data)
  | a :: _ => a.modify_time

/-- Trailing statistics block of the report, applied to the sorted list. -/
def statsBlock (as : List Article) : Str :=
  ("\n## 📊 统计信息\n\n- **文章总数**: ".data) ++ natStr as.length ++
  (" 篇\n- **总字数**: ".data) ++ fmtComma (totalWords as) ++
  (" 字\n- **总大小**: ".data) ++ fmt1f (totalSize as) ++
  (" KB\n- **平均字数**: ".data) ++ fmtComma (avgWords as) ++
  (" 字/篇\n- **最近更新**: ".data) ++ recentTime as ++ ("\n".data)

/-- Header of the report up to and including the listing-table header. -/
def reportHeader (now folder : Str) (count : Nat) : Str :=
  ("# 📚 文章索引\n\n> 🕒 自动生成于 ".data) ++ now ++ ("\n> 📁 目录：`".data) ++ folder ++
  ("`\n> 📊 统计：共 **".data) ++ natStr count ++
  ("** 篇文章\n\n---\n\n## 📋 文章总览\n\n| 序号 | 标题 | 文件名 | 更新时间 | 字数 | 大小 | 链接 |\n|------|------|--------|----------|------|------|------|\n".data)

/-- Concatenated detail sections, in the order of the given list. -/
def detailBlocks (as : List Article) : Str :=
  (as.map detailSection).flatten

/-- Model of the pure assembly part of generate_index_with_toc: sort the
summaries, then render header, listing rows, detail sections and statistics;
the generation timestamp and the folder name are external inputs. -/
def generate_index_md (now folder : Str) (articles : List Article) : Str :=
  let sorted := sortArticles articles
  reportHeader now folder articles.length ++ rowsFrom 1 sorted ++ ("\n---\n\n".data) ++
  ("## 📄 文章详情\n\n".data) ++ detailBlocks sorted ++ statsBlock sorted

/-- Reference scan from the specification wording for claim four: the first
level-1 heading line outside any fenced region, returning its stripped
captured text with no emptiness test. -/
def specFindH1 : Bool → List Str → Option Str
  | _, [] => none
  | inCode, l :: ls =>
    if fenceLine l then specFindH1 (!inCode) ls
    else if inCode then specFindH1 inCode ls
    else
      match matchHashes 1 l with
      | some g => some (pyStrip g)
      | none => specFindH1 inCode ls

/-- Reference heading test from the specification wording for claim five:
the level is the count of leading marker characters when it lies between one
and six and the remainder matches the required-whitespace capture. -/
def specHeadingOf (l : Str) : Option (Nat × Str) :=
  let k := (l.takeWhile (fun c => c = '#')).length
  if 1 ≤ k ∧ k ≤ 6 then (captureBody (l.drop k)).map (fun g => (k, g)) else none

/-- Outline loop built on the reference heading test. -/
def specOutlineLoop : Nat → Bool → List Str → List HeadingEntry
  | _, _, [] => []
  | i, inCode, l :: ls =>
    if fenceLine l then specOutlineLoop (i + 1) (!inCode) ls
    else if inCode then specOutlineLoop (i + 1) inCode ls
    else
      match specHeadingOf l with
      | some (lvl, g) =>
        { level := lvl, title := clean_markdown_format (pyStrip g), line_number := i + 1 } ::
          specOutlineLoop (i + 1) inCode ls
      | none => specOutlineLoop (i + 1) inCode ls

/-- Reference outline from the specification wording. -/
def specOutline (content : Str) : List HeadingEntry :=
  specOutlineLoop 0 false (splitNl content)

/-- Absence of a pattern match at every position of a string: the scanner
fails on every suffix. -/
def NoM (t : Str → Option (Str × Str)) (cs : Str) : Prop :=
  ∀ v, v <:+ cs → t v = none

/-- Head test used by the whitespace-normalisation predicate. -/
def headNotWs : Str → Bool
  | [] => true
  | d :: _ => !(isWs d)

/-- Normalised whitespace: every whitespace character is a single space not
followed by further whitespace. -/
def wsNorm : Str → Bool
  | [] => true
  | c :: cs =>
    if isWs c = true then decide (c = ' ') && headNotWs cs && wsNorm cs
    else wsNorm cs

/-- Document summary used to exhibit an empty-text outline entry in the
rendered report. -/
def braArticle : Article where
  filename := ("x.md".data)
  title := ['T']
  modify_time := ("2024-01-01 00:00".data)
  size := 100
  description := []
  word_count := 2
  titles := [{ level := 1, title := [], line_number := 1 }]
  full_path := ("x.md".data)

example : fmtComma 1234567 = ("1,234,567".data) := by decide
example : fmtComma 0 = ['0'] := by decide
example : qRepr 500 = ("5.0".data) := by decide
example : qRepr 525 = ("5.25".data) := by decide
example : qRepr 505 = ("5.05".data) := by decide
example : fmt1f 0 = ("0.0".data) := by decide
example : fmt1f 25 = ("0.2".data) := by decide
example : fmt1f 35 = ("0.4".data) := by decide

/-- Nonemptiness of any title produced by one toc pattern: the chain only
returns titles that survived the truthiness test. -/
theorem tocResult_ne_nil {p : Str → Option Str} {c t : Str}
    (h : tocResult p c = some t) : t ≠ [] := by
  unfold tocResult at h
  cases hs : searchBy p c with
  | none => rw [hs] at h; exact absurd h (by simp)
  | some g =>
    rw [hs] at h
    by_cases he : stripOuterParens (pyStrip g) = []
    · simp only [he, if_pos rfl] at h
      exact absurd h (by simp)
    · simp only [if_neg he] at h
      cases h
      exact he

/-- Nonemptiness of the title produced by the toc step. -/
theorem tocStep_ne_nil {c t : Str} (h : tocStep c = some t) : t ≠ [] := by
  unfold tocStep at h
  cases h1 : tocResult tryToc1 c with
  | some t1 => rw [h1] at h; cases h; exact tocResult_ne_nil h1
  | none =>
    rw [h1] at h
    cases h2 : tocResult tryToc2 c with
    | some t2 => rw [h2] at h; cases h; exact tocResult_ne_nil h2
    | none =>
      rw [h2] at h
      cases h3 : tocResult tryToc3 c with
      | some t3 => rw [h3] at h; cases h; exact tocResult_ne_nil h3
      | none => rw [h3] at h; exact tocResult_ne_nil h

/-- Nonemptiness of the title produced by the heading steps: a heading whose
cleaned text is empty is skipped, not returned. -/
theorem findHeading_ne_nil {lvl : Nat} {t : Str} :
    ∀ {b : Bool} {ls : List Str}, findHeading lvl b ls = some t → t ≠ [] := by
  intro b ls
  induction ls generalizing b with
  | nil => intro h; simp [findHeading] at h
  | cons l ls ih =>
    intro h
    unfold findHeading at h
    by_cases hf : fenceLine l
    · rw [if_pos hf] at h; exact ih h
    · rw [if_neg hf] at h
      by_cases hc : b = true
      · rw [hc] at h; rw [if_pos rfl] at h; exact ih h
      · have hb : b = false := by revert hc; cases b <;> simp
        rw [hb] at h
        rw [if_neg (by simp)] at h
        cases hm : matchHashes lvl l with
        | some g =>
          rw [hm] at h
          simp only [] at h
          by_cases he : clean_markdown_format (pyStrip g) = []
          · rw [if_pos he] at h; exact ih h
          · rw [if_neg he] at h; cases h; exact he
        | none => rw [hm] at h; exact ih h

/-- C1, counterexample: the title extractor can return the empty string (the
plausible-body-line step cleans a tag-only line to nothing and returns it
without falling through to the filename fallback), and it can return a
whitespace-only string through the toc step. -/
theorem claim1_counterexample :
    extract_title_from_md ("<br>".data) ("a.md".data) = [] ∧
    extract_title_from_md ("<!--toc-->( )".data) ("a.md".data) = [' '] := by
  exact ⟨by decide, by decide⟩

/-- C1, amended: the toc, level-1-heading and level-2-heading steps each
either return a nonempty title or pass control on, but the plausible-body-
line step returns its cleaned line even when that line cleans to the empty
string, and the terminal filename fallback can itself be empty, so
extract_title_from_md does not always return a nonempty string. -/
theorem claim1_amended :
    (∀ c t, tocStep c = some t → t ≠ []) ∧
    (∀ b ls t, findHeading 1 b ls = some t → t ≠ []) ∧
    (∀ b ls t, findHeading 2 b ls = some t → t ≠ []) ∧
    extract_title_from_md ("<br>".data) ("a.md".data) = [] ∧
    prettyFilename ("-.md".data) = [] := by
  refine ⟨?_, ?_, ?_, by decide, by decide⟩
  · intro c t h; exact tocStep_ne_nil h
  · intro b ls t h; exact findHeading_ne_nil h
  · intro b ls t h; exact findHeading_ne_nil h

/-- Witness for the amended claim one at a concrete document. -/
theorem claim1_witness : ("My Title".data : Str) ≠ [] :=
  claim1_amended.1 ("@[toc](My Title)".data) ("My Title".data) (by decide)

/-- C2, counterexample: an image reference with nonempty alt text is not
removed; the link rule fires first and leaves the bang marker and the alt
text in the output. -/
theorem claim2_counterexample :
    clean_markdown_format ("![alt](target)".data) = ("!alt".data) ∧
    clean_markdown_format ("![alt](target)".data) ≠ [] := by
  exact ⟨by decide, by decide⟩

/-- C7: on the empty document set the statistics block states an average
word count of zero and the empty-set placeholder for the most recent
modification time, and the average is produced by the guarded empty branch,
not by a division. -/
theorem claim7_empty_stats :
    statsBlock [] =
      ("\n## 📊 统计信息\n\n- **文章总数**: 0 篇\n- **总字数**: 0 字\n- **总大小**: 0.0 KB\n- **平均字数**: 0 字/篇\n- **最近更新**: 无\n".data) ∧
    avgWords [] = 0 := by
  exact ⟨by decide, rfl⟩

/-- C9: the title extractor depends only on the first 3000 characters of
the document text, together with the filename path. -/
theorem claim9_window (d1 d2 p : Str) (h : d1.take 3000 = d2.take 3000) :
    extract_title_from_md d1 p = extract_title_from_md d2 p := by
  simp only [extract_title_from_md]
  rw [h]

/-- Witness for claim nine: two documents longer than the window that agree
exactly on the window. -/
theorem claim9_witness :
    extract_title_from_md (List.replicate 3001 'a') ("a.md".data) =
      extract_title_from_md (List.replicate 3000 'a' ++ ['b']) ("a.md".data) := by
  apply claim9_window
  have h2 : (List.replicate 3000 'a' ++ ['b']).take 3000 = List.replicate 3000 'a' :=
    List.take_left' (by rw [List.length_replicate])
  rw [h2, List.take_replicate]
  norm_num

set_option maxRecDepth 100000 in
/-- C10: the outline extractor records a heading even when its cleaned text
is empty, the title extractor skips such headings, and an empty-text outline
entry reaches the rendered detail section as a bare list bullet. -/
theorem claim10_empty_outline :
    extract_all_titles ("# <br>".data) = [{ level := 1, title := [], line_number := 1 }] ∧
    extract_title_from_md ("# <br>\n# Real".data) ("p.md".data) = ("Real".data) ∧
    ("- \n".data) <:+: detailSection braArticle := by
  refine ⟨by decide, by decide, ?_⟩
  decide


/-- Splitting takeWhile at the first failing element. -/
theorem takeWhile_append_of_all {α : Type} {p : α → Bool} :
    ∀ {pre : List α} {d : α} {post : List α}, (∀ c ∈ pre, p c = true) → p d = false →
      ((pre ++ d :: post).takeWhile p) = pre := by
  intro pre
  induction pre with
  | nil => intro d post _ hd; simp [List.takeWhile, hd]
  | cons c cs ih =>
    intro d post h hd
    have hc : p c = true := h c (List.mem_cons_self c cs)
    show ((c :: (cs ++ d :: post)).takeWhile p) = c :: cs
    rw [List.takeWhile_cons, hc, ih (fun x hx => h x (List.mem_cons_of_mem c hx)) hd]
    simp

/-- Splitting dropWhile at the first failing element. -/
theorem dropWhile_append_of_all {α : Type} {p : α → Bool} :
    ∀ {pre : List α} {d : α} {post : List α}, (∀ c ∈ pre, p c = true) → p d = false →
      ((pre ++ d :: post).dropWhile p) = d :: post := by
  intro pre
  induction pre with
  | nil => intro d post _ hd; simp [List.dropWhile, hd]
  | cons c cs ih =>
    intro d post h hd
    have hc : p c = true := h c (List.mem_cons_self c cs)
    show ((c :: (cs ++ d :: post)).dropWhile p) = d :: post
    rw [List.dropWhile_cons, hc, ih (fun x hx => h x (List.mem_cons_of_mem c hx)) hd]
    simp

/-- Search skips a region at whose positions the scanner cannot match. -/
theorem searchBy_append_none (t : Str → Option Str) :
    ∀ (pre rest : Str), (∀ (c : Char) (l : Str), c ∈ pre → t (c :: l) = none) →
      searchBy t (pre ++ rest) = searchBy t rest := by
  intro pre
  induction pre with
  | nil => intro rest _; rfl
  | cons c cs ih =>
    intro rest h
    show searchBy t (c :: (cs ++ rest)) = searchBy t rest
    rw [searchBy, h c (cs ++ rest) (List.mem_cons_self c cs)]
    exact ih rest (fun x l hx => h x l (List.mem_cons_of_mem c hx))

/-- The first toc scanner needs an at sign at its position. -/
theorem tryToc1_head_none {c : Char} (l : Str) (h : c ≠ '@') : tryToc1 (c :: l) = none := by
  simp [tryToc1, h]

/-- Evaluation of the first toc scanner at a well-formed directive. -/
theorem tryToc1_at (title rest : Str) (h2 : title ≠ []) (h3 : ')' ∉ title) :
    tryToc1 ('@' :: '[' :: 't' :: 'o' :: 'c' :: ']' :: '(' :: (title ++ ')' :: rest)) =
      some title := by
  have hall : ∀ c ∈ title, (fun x => decide (x ≠ ')')) c = true := by
    intro c hc
    simp only [decide_eq_true_eq]
    intro hcc
    exact h3 (hcc ▸ hc)
  have ht : ciIs 't' 't' := by decide
  have ho : ciIs 'o' 'o' := by decide
  have hc : ciIs 'c' 'c' := by decide
  simp only [tryToc1, tryToc2, ht, ho, hc, if_pos rfl, eq_self_iff_true, true_and, and_true,
    and_self, if_true]
  have hdw : (('(' :: (title ++ ')' :: rest)).dropWhile isWs) = '(' :: (title ++ ')' :: rest) := by
    rw [List.dropWhile_cons]
    simp [show isWs '(' = false from by decide]
  rw [hdw]
  simp only [parenGroup, if_pos rfl]
  rw [takeWhile_append_of_all hall (by decide), dropWhile_append_of_all hall (by decide)]
  simp [h2]

/-- Extraction of a list element from its last-element view. -/
theorem mem_of_getLast?_eq {α : Type} : ∀ {l : List α} {a : α}, l.getLast? = some a → a ∈ l := by
  intro l
  induction l with
  | nil => intro a h; simp [List.getLast?] at h
  | cons c cs ih =>
    intro a h
    cases cs with
    | nil =>
      simp only [List.getLast?_singleton, Option.some.injEq] at h
      exact h ▸ List.mem_cons_self c []
    | cons d ds =>
      rw [List.getLast?_cons_cons] at h
      exact List.mem_cons_of_mem c (ih h)

/-- The paren-stripping substitution leaves a title alone when it neither
starts with an opening paren nor contains a closing paren. -/
theorem stripOuterParens_id {t : Str} (h5 : t.head? ≠ some '(') (h3 : ')' ∉ t) :
    stripOuterParens t = t := by
  unfold stripOuterParens
  cases t with
  | nil => rfl
  | cons c r =>
    have hcne : c ≠ '(' := by
      intro hcc
      exact h5 (by rw [hcc]; rfl)
    simp only [if_neg hcne]
    cases hl : (c :: r).getLast? with
    | none => rfl
    | some l =>
      have hmem : l ∈ c :: r := mem_of_getLast?_eq hl
      have hlne : l ≠ ')' := fun hll => h3 (hll ▸ hmem)
      simp [hlne]

/-- C3: when the inspected window contains a well-formed toc directive, the
title extractor returns the directive title exactly — already trimmed, with
no surrounding parens, not passed through the cleaner — ignoring every
heading present in the document.  The region before the directive contains
no at sign, so the shown directive is the first match of the
highest-priority pattern, and the directive lies inside the 3000-character
window. -/
theorem claim3_toc_directive (pre title post path : Str)
    (h1 : '@' ∉ pre) (h2 : title ≠ []) (h3 : ')' ∉ title)
    (h4 : pyStrip title = title) (h5 : title.head? ≠ some '(')
    (h6 : pre.length + title.length + 8 ≤ 3000) :
    extract_title_from_md (pre ++ ("@[toc](".data) ++ (title ++ ')' :: post)) path = title := by
  have e1 : pre ++ ("@[toc](".data) ++ (title ++ ')' :: post)
      = (pre ++ (("@[toc](".data) ++ (title ++ [')']))) ++ post := by
    simp
  have hlen2 : (pre ++ (("@[toc](".data) ++ (title ++ [')']))).length
      = pre.length + title.length + 8 := by
    simp [List.length_append]
    omega
  have hlenle : (pre ++ (("@[toc](".data) ++ (title ++ [')']))).length ≤ 3000 := by
    rw [hlen2]; exact h6
  have htake : (pre ++ ("@[toc](".data) ++ (title ++ ')' :: post)).take 3000
      = (pre ++ (("@[toc](".data) ++ (title ++ [')'])))
          ++ post.take (3000 - (pre.length + title.length + 8)) := by
    rw [e1, List.take_append_eq_append_take, List.take_of_length_le hlenle, hlen2]
  have e2 : (pre ++ (("@[toc](".data) ++ (title ++ [')'])))
        ++ post.take (3000 - (pre.length + title.length + 8))
      = pre ++ ('@' :: '[' :: 't' :: 'o' :: 'c' :: ']' :: '(' ::
          (title ++ ')' :: post.take (3000 - (pre.length + title.length + 8)))) := by
    simp
  have hsearch : searchBy tryToc1 ((pre ++ (("@[toc](".data) ++ (title ++ [')'])))
      ++ post.take (3000 - (pre.length + title.length + 8))) = some title := by
    rw [e2, searchBy_append_none tryToc1 pre _
      (fun c l hc => tryToc1_head_none l (fun hcc => h1 (hcc ▸ hc)))]
    rw [searchBy, tryToc1_at title _ h2 h3]
  have htoc : tocStep ((pre ++ ("@[toc](".data) ++ (title ++ ')' :: post)).take 3000)
      = some title := by
    rw [htake]
    unfold tocStep tocResult
    rw [hsearch]
    simp only []
    rw [h4, stripOuterParens_id h5 h3]
    simp [h2]
  simp only [extract_title_from_md]
  rw [htoc]

/-- Witness for claim three at a concrete document with a leading body line
and trailing headings. -/
theorem claim3_witness :
    extract_title_from_md (("Hello\n".data) ++ ("@[toc](".data) ++
      (("My Title".data) ++ ')' :: ("\n# Other\n## Two".data))) ("x.md".data) =
      ("My Title".data) :=
  claim3_toc_directive ("Hello\n".data) ("My Title".data) ("\n# Other\n## Two".data)
    ("x.md".data) (by decide) (by decide) (by decide) (by decide) (by decide) (by decide)

/-- The code-side level-1 heading scan agrees with the specification-side
scan whenever the first non-fenced heading has nonempty cleaned text. -/
theorem findHeading_of_spec {t : Str} :
    ∀ {b : Bool} {ls : List Str}, specFindH1 b ls = some t →
      clean_markdown_format t ≠ [] → findHeading 1 b ls = some (clean_markdown_format t) := by
  intro b ls
  induction ls generalizing b with
  | nil => intro h _; simp [specFindH1] at h
  | cons l ls ih =>
    intro h hne
    unfold specFindH1 at h
    unfold findHeading
    by_cases hf : fenceLine l
    · rw [if_pos hf] at h ⊢
      exact ih h hne
    · rw [if_neg hf] at h ⊢
      by_cases hb : b = true
      · rw [hb] at h ⊢
        rw [if_pos rfl] at h ⊢
        exact ih h hne
      · have hb' : b = false := by revert hb; cases b <;> simp
        rw [hb'] at h ⊢
        rw [if_neg (by simp)] at h ⊢
        cases hm : matchHashes 1 l with
        | some g =>
          rw [hm] at h
          simp only [Option.some.injEq] at h
          rw [← h] at hne ⊢
          simp only []
          rw [if_neg hne]
        | none =>
          rw [hm] at h
          exact ih h hne

/-- C4: with no toc directive in the window, when the first level-1 heading
outside every fenced code region captures the text t and t cleans to
something nonempty, the title extractor returns exactly the cleaned t;
headings inside fenced regions are never the ones returned, because the
specification-side scan skips them. -/
theorem claim4_first_heading (content path t : Str)
    (htoc : tocStep (content.take 3000) = none)
    (hspec : specFindH1 false (splitNl (content.take 3000)) = some t)
    (hne : clean_markdown_format t ≠ []) :
    extract_title_from_md content path = clean_markdown_format t := by
  simp only [extract_title_from_md]
  rw [htoc, findHeading_of_spec hspec hne]

/-- Witness for claim four: a fenced fake heading precedes the real one. -/
theorem claim4_witness :
    extract_title_from_md ("```\n# fake\n```\n# Heading One\nrest".data) ("x.md".data) =
      ("Heading One".data) := by
  have h := claim4_first_heading ("```\n# fake\n```\n# Heading One\nrest".data) ("x.md".data)
    ("Heading One".data) (by decide) (by decide) (by decide)
  rw [h]
  decide

/-- Characterisation of the heading match: the anchored marker-run regex of
level j matches exactly when the count of leading markers is j, and then
captures from position j. -/
theorem matchHashes_eq_if : ∀ (j : Nat) (l : Str),
    matchHashes j l =
      if (l.takeWhile (fun c => c = '#')).length = j then captureBody (l.drop j) else none := by
  intro j
  induction j with
  | zero =>
    intro l
    cases l with
    | nil => simp [matchHashes, captureBody]
    | cons c cs =>
      by_cases hc : c = '#'
      · have : ((c :: cs).takeWhile (fun c => c = '#')).length ≠ 0 := by
          rw [List.takeWhile_cons]
          simp [hc]
        rw [matchHashes, if_neg this]
        subst hc
        simp [captureBody, show isWs '#' = false from by decide]
      · have : ((c :: cs).takeWhile (fun c => c = '#')).length = 0 := by
          rw [List.takeWhile_cons]
          simp [hc]
        rw [matchHashes, if_pos this]
        rfl
  | succ j ih =>
    intro l
    cases l with
    | nil => simp [matchHashes]
    | cons c cs =>
      by_cases hc : c = '#'
      · subst hc
        rw [show matchHashes (j + 1) ('#' :: cs) = matchHashes j cs from by simp [matchHashes]]
        rw [ih cs]
        have ht : (('#' :: cs).takeWhile (fun c => c = '#')).length
            = (cs.takeWhile (fun c => c = '#')).length + 1 := by
          rw [List.takeWhile_cons]
          simp
        rw [ht]
        simp only [Nat.add_right_cancel_iff, List.drop_succ_cons]
      · rw [show matchHashes (j + 1) (c :: cs) = none from by simp [matchHashes, hc]]
        have : ((c :: cs).takeWhile (fun c => c = '#')).length = 0 := by
          rw [List.takeWhile_cons]
          simp [hc]
        rw [this]
        simp

/-- Evaluation of the level search: trying the six levels in increasing
order against a marker count k finds exactly level k when k lies between one
and six. -/
theorem findSome_six (k : Nat) (f : Nat → Option Str) :
    (([0, 1, 2, 3, 4, 5] : List Nat).findSome?
        (fun j => (if k = j + 1 then f (j + 1) else none).map (fun g => (j + 1, g)))) =
      if 1 ≤ k ∧ k ≤ 6 then (f k).map (fun g => (k, g)) else none := by
  rcases k with _ | _ | _ | _ | _ | _ | _ | n
  · simp [List.findSome?]
  · simp [List.findSome?]
    cases f 1 <;> simp
  · simp [List.findSome?]
    cases f 2 <;> simp
  · simp [List.findSome?]
    cases f 3 <;> simp
  · simp [List.findSome?]
    cases f 4 <;> simp
  · simp [List.findSome?]
    cases f 5 <;> simp
  · simp [List.findSome?]
    cases f 6 <;> simp
  · rw [if_neg (by omega)]
    have hne : ∀ j : Nat, j ≤ 5 → ¬ (n + 7 = j + 1) := by omega
    simp [List.findSome?, hne 0 (by omega), hne 1 (by omega), hne 2 (by omega),
      hne 3 (by omega), hne 4 (by omega), hne 5 (by omega)]

/-- Agreement of the two heading tests: the first level among one to six
whose marker-run regex matches is exactly the count of leading markers. -/
theorem firstLevelMatch_eq_spec (l : Str) : firstLevelMatch l = specHeadingOf l := by
  unfold firstLevelMatch specHeadingOf
  have hr : List.range 6 = [0, 1, 2, 3, 4, 5] := rfl
  rw [hr]
  simp only [matchHashes_eq_if]
  exact findSome_six ((l.takeWhile (fun c => c = '#')).length) (fun m => captureBody (l.drop m))

/-- Agreement of the two outline loops. -/
theorem outlineLoop_eq_spec : ∀ (ls : List Str) (i : Nat) (b : Bool),
    outlineLoop i b ls = specOutlineLoop i b ls := by
  intro ls
  induction ls with
  | nil => intro i b; rfl
  | cons l ls ih =>
    intro i b
    unfold outlineLoop specOutlineLoop
    rw [firstLevelMatch_eq_spec]
    by_cases hf : fenceLine l
    · rw [if_pos hf, if_pos hf, ih]
    · rw [if_neg hf, if_neg hf]
      by_cases hb : b = true
      · rw [hb, if_pos rfl, if_pos rfl, ih]
      · have hb' : b = false := by revert hb; cases b <;> simp
        rw [hb', if_neg (by simp), if_neg (by simp)]
        cases hm : specHeadingOf l with
        | some p => cases p with
          | mk lvl g => rw [ih]
        | none => rw [ih]

/-- C5: the outline extractor equals the specification-side outline: one
entry per non-fenced line matching some heading level, in document order,
with the level equal to the smallest matching marker count (one to six), the
text cleaned, and the one-based line number; fenced lines contribute
nothing. -/
theorem claim5_outline (content : Str) : extract_all_titles content = specOutline content :=
  outlineLoop_eq_spec (splitNl content) 0 false

/-- Irreflexivity of the string comparison. -/
theorem strLtB_irrefl : ∀ (s : Str), strLtB s s = false := by
  intro s
  induction s with
  | nil => rfl
  | cons c cs ih => simp [strLtB, ih]

/-- Asymmetry of the string comparison. -/
theorem strLtB_asymm : ∀ {s t : Str}, strLtB s t = true → strLtB t s = false := by
  intro s
  induction s with
  | nil =>
    intro t h
    cases t with
    | nil => simp [strLtB] at h
    | cons c cs => simp [strLtB]
  | cons x xs ih =>
    intro t h
    cases t with
    | nil => simp [strLtB] at h
    | cons y ys =>
      by_cases hxy : x = y
      · subst hxy
        simp only [strLtB, if_pos rfl] at h ⊢
        exact ih h
      · simp only [strLtB, if_neg hxy] at h
        have hlt : x < y := of_decide_eq_true h
        have hyx : y ≠ x := fun he => hxy he.symm
        simp only [strLtB, if_neg hyx]
        simp [not_lt_of_gt hlt]

/-- Transitivity of the string comparison. -/
theorem strLtB_trans : ∀ {s t u : Str}, strLtB s t = true → strLtB t u = true →
    strLtB s u = true := by
  intro s
  induction s with
  | nil =>
    intro t u h1 h2
    cases t with
    | nil => simp [strLtB] at h1
    | cons y ys =>
      cases u with
      | nil => simp [strLtB] at h2
      | cons z zs => simp [strLtB]
  | cons x xs ih =>
    intro t u h1 h2
    cases t with
    | nil => simp [strLtB] at h1
    | cons y ys =>
      cases u with
      | nil => simp [strLtB] at h2
      | cons z zs =>
        by_cases hxy : x = y <;> by_cases hyz : y = z
        · subst hxy; subst hyz
          simp only [strLtB, if_pos rfl] at h1 h2 ⊢
          exact ih h1 h2
        · subst hxy
          simp only [strLtB, if_pos rfl] at h1
          simp only [strLtB, if_neg hyz] at h2 ⊢
          exact h2
        · subst hyz
          simp only [strLtB, if_neg hxy] at h1
          simp only [strLtB, if_neg hxy]
          exact h1
        · simp only [strLtB, if_neg hxy] at h1
          simp only [strLtB, if_neg hyz] at h2
          have hlt : x < z := lt_trans (of_decide_eq_true h1) (of_decide_eq_true h2)
          have hxz : x ≠ z := ne_of_lt hlt
          simp only [strLtB, if_neg hxz]
          simp [hlt]

/-- Totality of the string comparison. -/
theorem strLtB_false_cases : ∀ {s t : Str}, strLtB s t = false →
    strLtB t s = true ∨ s = t := by
  intro s
  induction s with
  | nil =>
    intro t h
    cases t with
    | nil => exact Or.inr rfl
    | cons y ys => simp [strLtB] at h
  | cons x xs ih =>
    intro t h
    cases t with
    | nil => exact Or.inl (by simp [strLtB])
    | cons y ys =>
      by_cases hxy : x = y
      · subst hxy
        simp only [strLtB, if_pos rfl] at h
        cases ih h with
        | inl h1 => exact Or.inl (by simp only [strLtB, if_pos rfl]; exact h1)
        | inr h1 => exact Or.inr (by rw [h1])
      · simp only [strLtB, if_neg hxy] at h
        have hnlt : ¬ (x < y) := of_decide_eq_false h
        have hlt : y < x := lt_of_le_of_ne (le_of_not_lt hnlt) (fun he => hxy he.symm)
        have hyx : y ≠ x := fun he => hxy he.symm
        exact Or.inl (by simp only [strLtB, if_neg hyx]; simp [hlt])

/-- Insertion produces a permutation. -/
theorem insertDesc_perm (a : Article) : ∀ (l : List Article),
    List.Perm (insertDesc a l) (a :: l) := by
  intro l
  induction l with
  | nil => exact List.Perm.refl [a]
  | cons b bs ih =>
    unfold insertDesc
    by_cases h : strLtB a.modify_time b.modify_time = true
    · rw [if_pos h]
      exact List.Perm.trans (List.Perm.cons b ih) (List.Perm.swap a b bs)
    · rw [if_neg h]

/-- The sort is a permutation of its input. -/
theorem sortArticles_perm : ∀ (l : List Article), List.Perm (sortArticles l) l := by
  intro l
  induction l with
  | nil => exact List.Perm.refl []
  | cons a l ih =>
    exact List.Perm.trans (insertDesc_perm a (sortArticles l)) (List.Perm.cons a ih)

/-- Insertion preserves the descending pairwise order. -/
theorem insertDesc_pairwise (a : Article) :
    ∀ {l : List Article}, l.Pairwise (fun x y => strLtB x.modify_time y.modify_time = false) →
      (insertDesc a l).Pairwise (fun x y => strLtB x.modify_time y.modify_time = false) := by
  intro l
  induction l with
  | nil => intro _; simp [insertDesc]
  | cons b bs ih =>
    intro h
    rw [List.pairwise_cons] at h
    obtain ⟨hb, hbs⟩ := h
    unfold insertDesc
    by_cases hab : strLtB a.modify_time b.modify_time = true
    · rw [if_pos hab, List.pairwise_cons]
      constructor
      · intro x hx
        rw [(insertDesc_perm a bs).mem_iff, List.mem_cons] at hx
        cases hx with
        | inl hxa => rw [hxa]; exact strLtB_asymm hab
        | inr hxbs => exact hb x hxbs
      · exact ih hbs
    · rw [if_neg hab, List.pairwise_cons]
      have hab' : strLtB a.modify_time b.modify_time = false := by
        revert hab; cases strLtB a.modify_time b.modify_time <;> simp
      constructor
      · intro x hx
        rw [List.mem_cons] at hx
        cases hx with
        | inl hxb => rw [hxb]; exact hab'
        | inr hxbs =>
          cases strLtB_false_cases hab' with
          | inl hba =>
            by_contra hax
            have hax' : strLtB a.modify_time x.modify_time = true := by
              revert hax; cases strLtB a.modify_time x.modify_time <;> simp
            have : strLtB b.modify_time x.modify_time = true := strLtB_trans hba hax'
            rw [hb x hxbs] at this
            exact absurd this (by simp)
          | inr heq => rw [heq]; exact hb x hxbs
      · rw [List.pairwise_cons]
        exact ⟨hb, hbs⟩

/-- The sorted list is pairwise descending. -/
theorem sortArticles_pairwise : ∀ (l : List Article),
    (sortArticles l).Pairwise (fun x y => strLtB x.modify_time y.modify_time = false) := by
  intro l
  induction l with
  | nil => simp [sortArticles]
  | cons a l ih => exact insertDesc_pairwise a ih

/-- Insertion and key filtering: the inserted element lands in front of the
filtered remainder of its own key class, because every element it moved past
has a strictly greater key. -/
theorem filter_insertDesc (k : Str) (a : Article) : ∀ (l : List Article),
    (insertDesc a l).filter (fun x => decide (x.modify_time = k)) =
      if a.modify_time = k then a :: l.filter (fun x => decide (x.modify_time = k))
      else l.filter (fun x => decide (x.modify_time = k)) := by
  intro l
  induction l with
  | nil =>
    by_cases hak : a.modify_time = k
    · simp [insertDesc, List.filter_cons, hak]
    · simp [insertDesc, List.filter_cons, hak]
  | cons b bs ih =>
    unfold insertDesc
    by_cases hab : strLtB a.modify_time b.modify_time = true
    · rw [if_pos hab, List.filter_cons, List.filter_cons]
      by_cases hak : a.modify_time = k
      · have hbk : ¬ (b.modify_time = k) := by
          intro hbk
          rw [hak, hbk] at hab
          rw [strLtB_irrefl] at hab
          exact absurd hab (by simp)
        rw [ih]
        simp [hbk, hak]
      · rw [ih]
        simp [hak]
    · rw [if_neg hab, List.filter_cons]
      by_cases hak : a.modify_time = k
      · simp [hak]
      · simp [hak]

/-- Key filtering commutes with the sort: ties keep input order. -/
theorem filter_sortArticles (k : Str) : ∀ (l : List Article),
    (sortArticles l).filter (fun x => decide (x.modify_time = k)) =
      l.filter (fun x => decide (x.modify_time = k)) := by
  intro l
  induction l with
  | nil => rfl
  | cons a l ih =>
    show (insertDesc a (sortArticles l)).filter (fun x => decide (x.modify_time = k)) = _
    rw [filter_insertDesc, List.filter_cons]
    by_cases hak : a.modify_time = k
    · simp [hak, ih]
    · simp [hak, ih]

/-- C6: the report orders documents by descending modification time, the
sorted sequence is a permutation of the input, documents with equal
modification times keep their relative input order (stable sort, no
secondary key), and both the listing rows and the detail sections are
rendered from that one sorted sequence. -/
theorem claim6_sort_order (as : List Article) :
    (sortArticles as).Pairwise (fun a b => strLtB a.modify_time b.modify_time = false) ∧
    List.Perm (sortArticles as) as ∧
    (∀ k : Str, (sortArticles as).filter (fun a => decide (a.modify_time = k)) =
      as.filter (fun a => decide (a.modify_time = k))) ∧
    (∀ now folder : Str, generate_index_md now folder as =
      reportHeader now folder as.length ++ rowsFrom 1 (sortArticles as) ++ ("\n---\n\n".data) ++
      ("## 📄 文章详情\n\n".data) ++ detailBlocks (sortArticles as) ++ statsBlock (sortArticles as)) :=
  ⟨sortArticles_pairwise as, sortArticles_perm as,
    fun k => filter_sortArticles k as, fun _ _ => rfl⟩

/-- Fuel irrelevance of the substitution scan, given that every match
consumes more than it produces. -/
theorem scanSubF_congr (t : Str → Option (Str × Str))
    (hsh : ∀ cs o r, t cs = some (o, r) → o.length + r.length < cs.length) :
    ∀ (n m : Nat) (cs : Str), cs.length ≤ n → cs.length ≤ m →
      scanSubF t n cs = scanSubF t m cs := by
  intro n
  induction n with
  | zero =>
    intro m cs hn _
    have : cs = [] := List.length_eq_zero.mp (Nat.le_zero.mp hn)
    subst this
    cases m <;> rfl
  | succ n ih =>
    intro m cs hn hm
    cases cs with
    | nil => cases m <;> rfl
    | cons c cs =>
      cases m with
      | zero => exact absurd hm (by simp)
      | succ m =>
        show scanSubF t (n + 1) (c :: cs) = scanSubF t (m + 1) (c :: cs)
        unfold scanSubF
        cases ht : t (c :: cs) with
        | some p =>
          cases p with
          | mk o r =>
            have hr := hsh (c :: cs) o r ht
            show o ++ scanSubF t n r = o ++ scanSubF t m r
            simp only [List.length_cons] at hn hm hr
            rw [ih m r (by omega) (by omega)]
        | none =>
          show c :: scanSubF t n cs = c :: scanSubF t m cs
          simp only [List.length_cons] at hn hm
          rw [ih m cs (by omega) (by omega)]

/-- Unfolding of the substitution at a matching head. -/
theorem subBy_cons_some {t : Str → Option (Str × Str)}
    (hsh : ∀ cs o r, t cs = some (o, r) → o.length + r.length < cs.length)
    {c : Char} {cs o r : Str} (h : t (c :: cs) = some (o, r)) :
    subBy t (c :: cs) = o ++ subBy t r := by
  show scanSubF t (c :: cs).length (c :: cs) = o ++ subBy t r
  have hr := hsh (c :: cs) o r h
  simp only [List.length_cons]
  unfold scanSubF
  rw [h]
  show o ++ scanSubF t cs.length r = o ++ subBy t r
  simp only [List.length_cons] at hr
  rw [scanSubF_congr t hsh cs.length r.length r (by omega) (le_refl _)]
  rfl

/-- Unfolding of the substitution at a non-matching head. -/
theorem subBy_cons_none {t : Str → Option (Str × Str)}
    {c : Char} {cs : Str} (h : t (c :: cs) = none) :
    subBy t (c :: cs) = c :: subBy t cs := by
  show scanSubF t (c :: cs).length (c :: cs) = c :: subBy t cs
  simp only [List.length_cons]
  unfold scanSubF
  rw [h]
  show c :: scanSubF t cs.length cs = c :: subBy t cs
  rfl

/-- The substitution never grows the string. -/
theorem subBy_length_le (t : Str → Option (Str × Str))
    (hsh : ∀ cs o r, t cs = some (o, r) → o.length + r.length < cs.length) :
    ∀ (n : Nat) (cs : Str), cs.length ≤ n → (subBy t cs).length ≤ cs.length := by
  intro n
  induction n with
  | zero =>
    intro cs hn
    have : cs = [] := List.length_eq_zero.mp (Nat.le_zero.mp hn)
    subst this
    simp [subBy, scanSubF]
  | succ n ih =>
    intro cs hn
    cases cs with
    | nil => simp [subBy, scanSubF]
    | cons c cs =>
      cases ht : t (c :: cs) with
      | some p =>
        cases p with
        | mk o r =>
          have hr := hsh (c :: cs) o r ht
          rw [subBy_cons_some hsh ht]
          have h1 : (subBy t r).length ≤ r.length := by
            apply ih
            simp only [List.length_cons] at hn hr
            omega
          simp only [List.length_append, List.length_cons] at hr ⊢
          omega
      | none =>
        rw [subBy_cons_none ht]
        simp only [List.length_cons] at hn ⊢
        have := ih cs (by omega)
        omega

/-- A string with no match anywhere is a fixed point of the substitution. -/
theorem subBy_eq_self_of_NoM (t : Str → Option (Str × Str)) :
    ∀ (cs : Str), NoM t cs → subBy t cs = cs := by
  intro cs
  induction cs with
  | nil => intro _; rfl
  | cons c cs ih =>
    intro h
    rw [subBy_cons_none (h (c :: cs) (List.suffix_refl _))]
    rw [ih (fun v hv => h v (hv.trans (List.suffix_cons c cs)))]

/-- A fixed point of the substitution has no match anywhere. -/
theorem NoM_of_subBy_eq_self (t : Str → Option (Str × Str))
    (hsh : ∀ cs o r, t cs = some (o, r) → o.length + r.length < cs.length)
    (hnil : t [] = none) :
    ∀ (n : Nat) (cs : Str), cs.length ≤ n → subBy t cs = cs → NoM t cs := by
  intro n
  induction n with
  | zero =>
    intro cs hn _
    have : cs = [] := List.length_eq_zero.mp (Nat.le_zero.mp hn)
    subst this
    intro v hv
    rw [List.suffix_nil.mp hv]
    exact hnil
  | succ n ih =>
    intro cs hn heq
    cases cs with
    | nil =>
      intro v hv
      rw [List.suffix_nil.mp hv]
      exact hnil
    | cons c cs =>
      cases ht : t (c :: cs) with
      | some p =>
        cases p with
        | mk o r =>
          exfalso
          have hr := hsh (c :: cs) o r ht
          rw [subBy_cons_some hsh ht] at heq
          have h1 : (o ++ subBy t r).length = (c :: cs).length := by rw [heq]
          have h2 : (subBy t r).length ≤ r.length := by
            apply subBy_length_le t hsh r.length r (le_refl _)
          simp only [List.length_append, List.length_cons] at h1 hr
          omega
      | none =>
        rw [subBy_cons_none ht] at heq
        have heq' : subBy t cs = cs := by
          injection heq
        have hcs : NoM t cs := by
          apply ih cs _ heq'
          simp only [List.length_cons] at hn
          omega
        intro v hv
        rw [List.suffix_cons_iff] at hv
        cases hv with
        | inl h1 => rw [h1]; exact ht
        | inr h2 => exact hcs v h2

/-- No-match regions are closed under suffixes. -/
theorem NoM_suffix {t : Str → Option (Str × Str)} {cs v : Str}
    (h : NoM t cs) (hv : v <:+ cs) : NoM t v :=
  fun w hw => h w (hw.trans hv)

/-- No-match regions are closed under taking a left part, for scanners whose
matches survive appending on the right. -/
theorem NoM_append_left {t : Str → Option (Str × Str)}
    (hmono : ∀ u v, t u ≠ none → t (u ++ v) ≠ none) {a b : Str}
    (h : NoM t (a ++ b)) : NoM t a := by
  intro v hv
  by_contra hne
  obtain ⟨w, hw⟩ := hv
  have : v ++ b <:+ a ++ b := ⟨w, by rw [← List.append_assoc, hw]⟩
  exact hmono v b hne (h (v ++ b) this)

/-- A whitespace character differs from every non-whitespace character. -/
theorem ws_ne_of {c d : Char} (h : isWs c = true) (hd : isWs d = false) : c ≠ d := by
  intro he
  rw [he] at h
  rw [h] at hd
  exact absurd hd (by simp)

/-- The squeezer keeps a non-whitespace head. -/
theorem squeezeWs_cons_nws {c : Char} (cs : Str) (hc : isWs c = false) :
    squeezeWs (c :: cs) = c :: squeezeWs cs := by
  simp [squeezeWs, hc]

/-- The squeezer returns the empty string only on the empty string. -/
theorem squeezeWs_eq_nil_iff : ∀ (cs : Str), squeezeWs cs = [] ↔ cs = [] := by
  intro cs
  induction cs with
  | nil => simp [squeezeWs]
  | cons c cs ih =>
    constructor
    · intro h
      by_cases hc : isWs c = true
      · cases cs with
        | nil => simp [squeezeWs, hc] at h
        | cons d ds =>
          by_cases hd : isWs d = true
          · rw [show squeezeWs (c :: d :: ds) = squeezeWs (d :: ds) from by
              simp [squeezeWs, hc, hd]] at h
            exact absurd (ih.mp h) (by simp)
          · rw [show squeezeWs (c :: d :: ds) = ' ' :: squeezeWs (d :: ds) from by
              simp [squeezeWs, hc, hd]] at h
            simp at h
      · have hc' : isWs c = false := by revert hc; cases isWs c <;> simp
        rw [squeezeWs_cons_nws cs hc'] at h
        simp at h
    · intro h
      simp at h
  
/-- The squeezer turns a whitespace head into a single space head. -/
theorem squeezeWs_ws_head : ∀ (cs : Str) (c : Char), isWs c = true →
    ∃ w, squeezeWs (c :: cs) = ' ' :: w := by
  intro cs
  induction cs with
  | nil => intro c hc; exact ⟨[], by simp [squeezeWs, hc]⟩
  | cons d ds ih =>
    intro c hc
    by_cases hd : isWs d = true
    · obtain ⟨w, hw⟩ := ih d hd
      exact ⟨w, by rw [show squeezeWs (c :: d :: ds) = squeezeWs (d :: ds) from by
        simp [squeezeWs, hc, hd]]; exact hw⟩
    · exact ⟨squeezeWs (d :: ds), by simp [squeezeWs, hc, hd]⟩

/-- Unfolding of the squeezer on a whitespace-only singleton head. -/
theorem squeezeWs_ws_nil {c : Char} (hc : isWs c = true) : squeezeWs [c] = [' '] := by
  simp [squeezeWs, hc]

/-- Unfolding of the squeezer inside a whitespace run. -/
theorem squeezeWs_ws_ws {c e : Char} (es : Str) (hc : isWs c = true) (he : isWs e = true) :
    squeezeWs (c :: e :: es) = squeezeWs (e :: es) := by
  simp [squeezeWs, hc, he]

/-- Unfolding of the squeezer at the end of a whitespace run. -/
theorem squeezeWs_ws_nws {c e : Char} (es : Str) (hc : isWs c = true) (he : isWs e = false) :
    squeezeWs (c :: e :: es) = ' ' :: squeezeWs (e :: es) := by
  simp [squeezeWs, hc, he]

/-- The head of a nonempty dropWhile fails the predicate. -/
theorem dropWhile_head_false {α : Type} {p : α → Bool} {x : α} {xs : List α} :
    ∀ {l : List α}, l.dropWhile p = x :: xs → p x = false := by
  intro l
  induction l with
  | nil => intro h; simp at h
  | cons c cs ih =>
    intro h
    rw [List.dropWhile_cons] at h
    by_cases hp : p c = true
    · rw [if_pos hp] at h
      exact ih h
    · have hp' : p c = false := by revert hp; cases p c <;> simp
      rw [hp'] at h
      simp at h
      rw [← h.1]
      exact hp'

/-- The squeezer commutes with takeWhile for a predicate that holds on all
whitespace. -/
theorem takeWhile_squeezeWs_comm (p : Char → Bool) (hws : ∀ c, isWs c = true → p c = true) :
    ∀ (u : Str), (squeezeWs u).takeWhile p = squeezeWs (u.takeWhile p) := by
  have hsp : p ' ' = true := hws ' ' (by decide)
  intro u
  induction u with
  | nil => rfl
  | cons c cs ih =>
    by_cases hc : isWs c = true
    · have hpc : p c = true := hws c hc
      cases cs with
      | nil =>
        rw [squeezeWs_ws_nil hc, List.takeWhile_cons_of_pos hsp, List.takeWhile_nil,
          List.takeWhile_cons_of_pos hpc, List.takeWhile_nil, squeezeWs_ws_nil hc]
      | cons e es =>
        by_cases he : isWs e = true
        · have hpe : p e = true := hws e he
          rw [squeezeWs_ws_ws es hc he, ih, List.takeWhile_cons_of_pos hpc,
            List.takeWhile_cons_of_pos hpe, squeezeWs_ws_ws _ hc he]
        · have he' : isWs e = false := by revert he; cases isWs e <;> simp
          by_cases hpe : p e = true
          · rw [squeezeWs_ws_nws es hc he', List.takeWhile_cons_of_pos hsp, ih,
              List.takeWhile_cons_of_pos hpc, List.takeWhile_cons_of_pos hpe,
              squeezeWs_ws_nws _ hc he']
          · rw [squeezeWs_ws_nws es hc he', squeezeWs_cons_nws es he',
              List.takeWhile_cons_of_pos hsp, List.takeWhile_cons_of_neg hpe,
              List.takeWhile_cons_of_pos hpc, List.takeWhile_cons_of_neg hpe,
              squeezeWs_ws_nil hc]
    · have hc' : isWs c = false := by revert hc; cases isWs c <;> simp
      by_cases hpc : p c = true
      · rw [squeezeWs_cons_nws cs hc', List.takeWhile_cons_of_pos hpc, ih,
          List.takeWhile_cons_of_pos hpc, squeezeWs_cons_nws _ hc']
      · rw [squeezeWs_cons_nws cs hc', List.takeWhile_cons_of_neg hpc,
          List.takeWhile_cons_of_neg hpc]
        rfl

/-- The squeezer commutes with dropWhile for a predicate that holds on all
whitespace. -/
theorem dropWhile_squeezeWs_comm (p : Char → Bool) (hws : ∀ c, isWs c = true → p c = true) :
    ∀ (u : Str), (squeezeWs u).dropWhile p = squeezeWs (u.dropWhile p) := by
  have hsp : p ' ' = true := hws ' ' (by decide)
  intro u
  induction u with
  | nil => rfl
  | cons c cs ih =>
    by_cases hc : isWs c = true
    · have hpc : p c = true := hws c hc
      cases cs with
      | nil =>
        rw [squeezeWs_ws_nil hc, List.dropWhile_cons_of_pos hsp, List.dropWhile_nil,
          List.dropWhile_cons_of_pos hpc, List.dropWhile_nil]
        rfl
      | cons e es =>
        by_cases he : isWs e = true
        · rw [squeezeWs_ws_ws es hc he, ih, List.dropWhile_cons_of_pos hpc]
        · have he' : isWs e = false := by revert he; cases isWs e <;> simp
          rw [squeezeWs_ws_nws es hc he', List.dropWhile_cons_of_pos hsp, ih,
            List.dropWhile_cons_of_pos hpc]
    · have hc' : isWs c = false := by revert hc; cases isWs c <;> simp
      by_cases hpc : p c = true
      · rw [squeezeWs_cons_nws cs hc', List.dropWhile_cons_of_pos hpc, ih,
          List.dropWhile_cons_of_pos hpc]
      · rw [squeezeWs_cons_nws cs hc', List.dropWhile_cons_of_neg hpc,
          List.dropWhile_cons_of_neg hpc, squeezeWs_cons_nws cs hc']

/-- Structure of the suffixes of a squeezed string: each one is empty, the
squeeze of a suffix of the original, or headed by a space. -/
theorem suffix_squeezeWs : ∀ (s v : Str), v <:+ squeezeWs s →
    v = [] ∨ (∃ u, u <:+ s ∧ v = squeezeWs u) ∨ (∃ w, v = ' ' :: w) := by
  intro s
  induction s with
  | nil =>
    intro v hv
    left
    exact List.suffix_nil.mp hv
  | cons c cs ih =>
    intro v hv
    by_cases hc : isWs c = true
    · cases cs with
      | nil =>
        rw [squeezeWs_ws_nil hc] at hv
        rw [List.suffix_cons_iff] at hv
        cases hv with
        | inl h1 => exact Or.inr (Or.inr ⟨[], h1⟩)
        | inr h2 => exact Or.inl (List.suffix_nil.mp h2)
      | cons e es =>
        by_cases he : isWs e = true
        · rw [squeezeWs_ws_ws es hc he] at hv
          rcases ih v hv with h1 | ⟨u, hu, h2⟩ | h3
          · exact Or.inl h1
          · exact Or.inr (Or.inl ⟨u, hu.trans (List.suffix_cons c (e :: es)), h2⟩)
          · exact Or.inr (Or.inr h3)
        · have he' : isWs e = false := by revert he; cases isWs e <;> simp
          rw [squeezeWs_ws_nws es hc he'] at hv
          rw [List.suffix_cons_iff] at hv
          cases hv with
          | inl h1 => exact Or.inr (Or.inr ⟨squeezeWs (e :: es), h1⟩)
          | inr h2 =>
            rcases ih v h2 with h1 | ⟨u, hu, h3⟩ | h3
            · exact Or.inl h1
            · exact Or.inr (Or.inl ⟨u, hu.trans (List.suffix_cons c (e :: es)), h3⟩)
            · exact Or.inr (Or.inr h3)
    · have hc' : isWs c = false := by revert hc; cases isWs c <;> simp
      rw [squeezeWs_cons_nws cs hc'] at hv
      rw [List.suffix_cons_iff] at hv
      cases hv with
      | inl h1 =>
        refine Or.inr (Or.inl ⟨c :: cs, List.suffix_refl _, ?_⟩)
        rw [h1, squeezeWs_cons_nws cs hc']
      | inr h2 =>
        rcases ih v h2 with h1 | ⟨u, hu, h3⟩ | h3
        · exact Or.inl h1
        · exact Or.inr (Or.inl ⟨u, hu.trans (List.suffix_cons c cs), h3⟩)
        · exact Or.inr (Or.inr h3)

/-- No-match regions survive whitespace squeezing, for scanners that cannot
match on empty input or at whitespace and whose failures survive squeezing
pointwise. -/
theorem NoM_squeezeWs {t : Str → Option (Str × Str)} (hnil : t [] = none)
    (hwshead : ∀ (c : Char) (l : Str), isWs c = true → t (c :: l) = none)
    (hsq : ∀ u, t u = none → t (squeezeWs u) = none)
    {s : Str} (h : NoM t s) : NoM t (squeezeWs s) := by
  intro v hv
  rcases suffix_squeezeWs s v hv with h1 | ⟨u, hu, h2⟩ | ⟨w, h3⟩
  · rw [h1]; exact hnil
  · rw [h2]; exact hsq u (h u hu)
  · rw [h3]; exact hwshead ' ' w (by decide)

/-- Decomposition of a string around its stripped core. -/
theorem pyStrip_decomp (cs : Str) : ∃ w1 w2, cs = w1 ++ (pyStrip cs ++ w2) := by
  refine ⟨(rstripWs cs).takeWhile isWs, ((cs.reverse).takeWhile isWs).reverse, ?_⟩
  have h1 : rstripWs cs = (rstripWs cs).takeWhile isWs ++ pyStrip cs := by
    unfold pyStrip
    rw [List.takeWhile_append_dropWhile]
  have h2 : cs = rstripWs cs ++ ((cs.reverse).takeWhile isWs).reverse := by
    unfold rstripWs
    rw [← List.reverse_append, ← List.takeWhile_append_dropWhile (p := isWs) (l := cs.reverse)]
    simp
  conv_lhs => rw [h2, h1]
  rw [List.append_assoc]

/-- No-match regions survive the whole whitespace collapse. -/
theorem NoM_collapseWs {t : Str → Option (Str × Str)} (hnil : t [] = none)
    (hwshead : ∀ (c : Char) (l : Str), isWs c = true → t (c :: l) = none)
    (hsq : ∀ u, t u = none → t (squeezeWs u) = none)
    (hmono : ∀ u v, t u ≠ none → t (u ++ v) ≠ none)
    {s : Str} (h : NoM t s) : NoM t (collapseWs s) := by
  have h1 : NoM t (squeezeWs s) := NoM_squeezeWs hnil hwshead hsq h
  obtain ⟨w1, w2, hdec⟩ := pyStrip_decomp (squeezeWs s)
  have h2 : NoM t (pyStrip (squeezeWs s) ++ w2) := NoM_suffix h1 ⟨w1, hdec.symm⟩
  exact NoM_append_left hmono h2

/-- Unfolding of the normalisation predicate on a cons. -/
theorem wsNorm_cons (c : Char) (cs : Str) :
    wsNorm (c :: cs) =
      if isWs c = true then decide (c = ' ') && headNotWs cs && wsNorm cs else wsNorm cs := rfl

/-- The squeezer produces normalised whitespace. -/
theorem wsNorm_squeezeWs : ∀ (s : Str), wsNorm (squeezeWs s) = true := by
  intro s
  induction s with
  | nil => rfl
  | cons c cs ih =>
    by_cases hc : isWs c = true
    · cases cs with
      | nil => rw [squeezeWs_ws_nil hc]; rfl
      | cons e es =>
        by_cases he : isWs e = true
        · rw [squeezeWs_ws_ws es hc he]; exact ih
        · have he' : isWs e = false := by revert he; cases isWs e <;> simp
          rw [squeezeWs_ws_nws es hc he', squeezeWs_cons_nws es he']
          have ih' : wsNorm (e :: squeezeWs es) = true := by
            rw [← squeezeWs_cons_nws es he']
            exact ih
          rw [wsNorm_cons]
          simp [headNotWs, he', ih', show isWs ' ' = true from by decide]
    · have hc' : isWs c = false := by revert hc; cases isWs c <;> simp
      rw [squeezeWs_cons_nws cs hc', wsNorm_cons, hc']
      simpa using ih

/-- A normalised string is a fixed point of the squeezer. -/
theorem squeezeWs_of_wsNorm : ∀ (t : Str), wsNorm t = true → squeezeWs t = t := by
  intro t
  induction t with
  | nil => intro _; rfl
  | cons c cs ih =>
    intro h
    rw [wsNorm_cons] at h
    by_cases hc : isWs c = true
    · rw [if_pos hc] at h
      simp only [Bool.and_eq_true, decide_eq_true_eq] at h
      obtain ⟨⟨hsp, hnext⟩, hrest⟩ := h
      cases cs with
      | nil => rw [squeezeWs_ws_nil hc, hsp]
      | cons d ds =>
        have hd : isWs d = false := by simpa [headNotWs] using hnext
        rw [squeezeWs_ws_nws ds hc hd, ih hrest, hsp]
    · have hc' : isWs c = false := by revert hc; cases isWs c <;> simp
      rw [hc'] at h
      simp only [Bool.false_eq_true, if_false] at h
      rw [squeezeWs_cons_nws cs hc', ih h]

/-- Normalised whitespace restricts to left parts. -/
theorem wsNorm_append_left : ∀ (a b : Str), wsNorm (a ++ b) = true → wsNorm a = true := by
  intro a
  induction a with
  | nil => intro b _; rfl
  | cons c cs ih =>
    intro b h
    rw [List.cons_append, wsNorm_cons] at h
    rw [wsNorm_cons]
    by_cases hc : isWs c = true
    · rw [if_pos hc] at h ⊢
      simp only [Bool.and_eq_true, decide_eq_true_eq] at h ⊢
      obtain ⟨⟨hsp, hnext⟩, hrest⟩ := h
      refine ⟨⟨hsp, ?_⟩, ih b hrest⟩
      cases cs with
      | nil => rfl
      | cons d ds => simpa [headNotWs] using hnext
    · rw [if_neg hc] at h ⊢
      exact ih b h

/-- Normalised whitespace survives dropping the leading whitespace. -/
theorem wsNorm_dropWhile : ∀ (t : Str), wsNorm t = true → wsNorm (t.dropWhile isWs) = true := by
  intro t
  induction t with
  | nil => intro _; rfl
  | cons c cs ih =>
    intro h
    rw [wsNorm_cons] at h
    by_cases hc : isWs c = true
    · rw [List.dropWhile_cons_of_pos hc]
      rw [if_pos hc] at h
      simp only [Bool.and_eq_true, decide_eq_true_eq] at h
      obtain ⟨⟨hsp, hnext⟩, hrest⟩ := h
      cases cs with
      | nil => rfl
      | cons d ds =>
        have hd : isWs d = false := by simpa [headNotWs] using hnext
        rw [List.dropWhile_cons_of_neg (by rw [hd]; simp)]
        exact hrest
    · have hc' : isWs c = false := by revert hc; cases isWs c <;> simp
      rw [List.dropWhile_cons_of_neg (by rw [hc']; simp)]
      rw [wsNorm_cons]
      rw [if_neg hc] at h ⊢
      exact h

/-- Decomposition of a string around its right-stripped part. -/
theorem rstripWs_decomp (t : Str) : t = rstripWs t ++ ((t.reverse).takeWhile isWs).reverse := by
  unfold rstripWs
  rw [← List.reverse_append, ← List.takeWhile_append_dropWhile (p := isWs) (l := t.reverse)]
  simp

/-- A list whose head fails the predicate is untouched by dropWhile. -/
theorem dropWhile_eq_self_of_head_false {α : Type} {p : α → Bool} :
    ∀ {l : List α}, (∀ x xs, l = x :: xs → p x = false) → l.dropWhile p = l := by
  intro l h
  cases l with
  | nil => rfl
  | cons x xs =>
    rw [List.dropWhile_cons_of_neg]
    rw [h x xs rfl]
    simp

/-- The reverse of the right strip is the left strip of the reverse. -/
theorem rstripWs_reverse (t : Str) : (rstripWs t).reverse = (t.reverse).dropWhile isWs := by
  unfold rstripWs
  simp

/-- Stripping is idempotent. -/
theorem pyStrip_idem (t : Str) : pyStrip (pyStrip t) = pyStrip t := by
  by_cases hnil : pyStrip t = []
  · rw [hnil]
    rfl
  · obtain ⟨c, ys, hcy⟩ : ∃ c ys, pyStrip t = c :: ys := by
      cases h : pyStrip t with
      | nil => exact absurd h hnil
      | cons c ys => exact ⟨c, ys, rfl⟩
    have hhead : isWs c = false := by
      apply dropWhile_head_false (p := isWs) (l := rstripWs t)
      exact hcy
    have hsuf : pyStrip t <:+ rstripWs t := by
      unfold pyStrip
      exact List.dropWhile_suffix isWs
    obtain ⟨w, hw⟩ := hsuf
    have h2 : (pyStrip t).reverse ++ w.reverse = (t.reverse).dropWhile isWs := by
      rw [← rstripWs_reverse, ← hw]
      simp
    obtain ⟨d, rest, hd⟩ : ∃ d rest, (pyStrip t).reverse = d :: rest := by
      cases hx : (pyStrip t).reverse with
      | nil =>
        rw [List.reverse_eq_nil_iff] at hx
        exact absurd hx hnil
      | cons d rest => exact ⟨d, rest, rfl⟩
    have hlast : isWs d = false := by
      apply dropWhile_head_false (p := isWs) (l := t.reverse)
      rw [← h2, hd, List.cons_append]
    have hr : rstripWs (pyStrip t) = pyStrip t := by
      unfold rstripWs
      rw [hd, List.dropWhile_cons_of_neg (by rw [hlast]; simp), ← hd]
      simp
    have hdw : List.dropWhile isWs (pyStrip t) = pyStrip t := by
      rw [hcy]
      exact List.dropWhile_cons_of_neg (by rw [hhead]; simp)
    show List.dropWhile isWs (rstripWs (pyStrip t)) = pyStrip t
    rw [hr, hdw]

/-- The final whitespace normalisation of the cleaner is idempotent. -/
theorem collapseWs_idem (s : Str) : collapseWs (collapseWs s) = collapseWs s := by
  show pyStrip (squeezeWs (pyStrip (squeezeWs s))) = pyStrip (squeezeWs s)
  have h1 : wsNorm (squeezeWs s) = true := wsNorm_squeezeWs s
  have h2 : wsNorm (rstripWs (squeezeWs s)) = true := by
    apply wsNorm_append_left _ (((squeezeWs s).reverse.takeWhile isWs).reverse)
    rw [← rstripWs_decomp]
    exact h1
  have h3 : wsNorm (pyStrip (squeezeWs s)) = true := wsNorm_dropWhile _ h2
  rw [squeezeWs_of_wsNorm _ h3, pyStrip_idem]

/-- Elements of a takeWhile satisfy the predicate. -/
theorem mem_takeWhile_pred {α : Type} {p : α → Bool} :
    ∀ {l : List α} {x : α}, x ∈ l.takeWhile p → p x = true := by
  intro l
  induction l with
  | nil => intro x h; simp at h
  | cons c cs ih =>
    intro x h
    by_cases hp : p c = true
    · rw [List.takeWhile_cons_of_pos hp] at h
      rcases List.mem_cons.mp h with h1 | h2
      · rw [h1]; exact hp
      · exact ih h2
    · rw [List.takeWhile_cons_of_neg hp] at h
      simp at h

/-- Match-free characterisation of a single-delimiter scanner: the explicit
closing-delimiter test of the definition is subsumed by nonemptiness of the
dropWhile remainder, whose head is always the closing delimiter. -/
theorem singleDelim_char {a b : Char} {g : Str → Str}
    {F : Str → Option (Str × Str)}
    (hdef : ∀ t, F (a :: t) =
      if t.takeWhile (fun x => x ≠ b) = [] then none
      else
        match t.dropWhile (fun x => x ≠ b) with
        | d0 :: u => if d0 = b then some (g (t.takeWhile (fun x => x ≠ b)), u) else none
        | [] => none) :
    ∀ t, F (a :: t) =
      if t.takeWhile (fun x => x ≠ b) = [] then none
      else if t.dropWhile (fun x => x ≠ b) = [] then none
      else some (g (t.takeWhile (fun x => x ≠ b)), (t.dropWhile (fun x => x ≠ b)).tail) := by
  intro t
  rw [hdef t]
  by_cases hmid : t.takeWhile (fun x => x ≠ b) = []
  · rw [if_pos hmid, if_pos hmid]
  · rw [if_neg hmid, if_neg hmid]
    cases hdw : t.dropWhile (fun x => x ≠ b) with
    | nil => rw [if_pos rfl]
    | cons d0 u =>
      have hd0 : d0 = b := by
        have := dropWhile_head_false (l := t) (p := fun x => decide (x ≠ b)) hdw
        simpa using this
      rw [if_neg (by simp)]
      simp [hd0]

/-- Shrinking for a single-delimiter scanner. -/
theorem singleDelim_shrink {a b : Char} {g : Str → Str}
    {F : Str → Option (Str × Str)}
    (hout : ∀ s, (g s).length ≤ s.length)
    (hnil : F [] = none)
    (hne : ∀ (c : Char) (t : Str), c ≠ a → F (c :: t) = none)
    (hch : ∀ t, F (a :: t) =
      if t.takeWhile (fun x => x ≠ b) = [] then none
      else if t.dropWhile (fun x => x ≠ b) = [] then none
      else some (g (t.takeWhile (fun x => x ≠ b)), (t.dropWhile (fun x => x ≠ b)).tail)) :
    ∀ (cs o r : Str), F cs = some (o, r) → o.length + r.length < cs.length := by
  intro cs o r h
  cases cs with
  | nil => rw [hnil] at h; exact absurd h (by simp)
  | cons c t =>
    by_cases hc : c = a
    · subst hc
      rw [hch t] at h
      by_cases h1 : t.takeWhile (fun x => x ≠ b) = []
      · rw [if_pos h1] at h; exact absurd h (by simp)
      · rw [if_neg h1] at h
        by_cases h2 : t.dropWhile (fun x => x ≠ b) = []
        · rw [if_pos h2] at h; exact absurd h (by simp)
        · rw [if_neg h2] at h
          have ho : o = g (t.takeWhile (fun x => x ≠ b)) ∧
              r = (t.dropWhile (fun x => x ≠ b)).tail := by
            cases h; exact ⟨rfl, rfl⟩
          have hsum : (t.takeWhile (fun x => x ≠ b)).length +
              (t.dropWhile (fun x => x ≠ b)).length = t.length := by
            rw [← List.length_append, List.takeWhile_append_dropWhile]
          have hpos : 1 ≤ (t.dropWhile (fun x => x ≠ b)).length :=
            List.length_pos.mpr h2
          have htail : ((t.dropWhile (fun x => x ≠ b)).tail).length =
              (t.dropWhile (fun x => x ≠ b)).length - 1 := List.length_tail _
          have hol : o.length ≤ (t.takeWhile (fun x => x ≠ b)).length := by
            rw [ho.1]; exact hout _
          rw [ho.2, htail]
          simp only [List.length_cons]
          omega
    · rw [hne c t hc] at h
      exact absurd h (by simp)

/-- Right-append monotonicity for a single-delimiter scanner. -/
theorem singleDelim_mono {a b : Char} {g : Str → Str}
    {F : Str → Option (Str × Str)}
    (hnil : F [] = none)
    (hne : ∀ (c : Char) (t : Str), c ≠ a → F (c :: t) = none)
    (hch : ∀ t, F (a :: t) =
      if t.takeWhile (fun x => x ≠ b) = [] then none
      else if t.dropWhile (fun x => x ≠ b) = [] then none
      else some (g (t.takeWhile (fun x => x ≠ b)), (t.dropWhile (fun x => x ≠ b)).tail)) :
    ∀ (u v : Str), F u ≠ none → F (u ++ v) ≠ none := by
  intro u v h
  cases u with
  | nil => exact absurd hnil h
  | cons c t =>
    by_cases hc : c = a
    · subst hc
      rw [hch t] at h
      by_cases h1 : t.takeWhile (fun x => x ≠ b) = []
      · rw [if_pos h1] at h; exact absurd rfl h
      · by_cases h2 : t.dropWhile (fun x => x ≠ b) = []
        · rw [if_neg h1, if_pos h2] at h; exact absurd rfl h
        · obtain ⟨d0, u', hdw⟩ : ∃ d0 u', t.dropWhile (fun x => x ≠ b) = d0 :: u' := by
            cases hx : t.dropWhile (fun x => x ≠ b) with
            | nil => exact absurd hx h2
            | cons d0 u' => exact ⟨d0, u', rfl⟩
          have hall : ∀ x ∈ t.takeWhile (fun x => x ≠ b),
              (fun x => decide (x ≠ b)) x = true :=
            fun x hx => mem_takeWhile_pred (p := fun y => decide (y ≠ b)) (l := t) hx
          have hd0f : decide (d0 ≠ b) = false :=
            dropWhile_head_false (p := fun y => decide (y ≠ b)) (l := t) hdw
          have ht : t.takeWhile (fun x => x ≠ b) ++ (d0 :: u') = t := by
            rw [← hdw]; exact List.takeWhile_append_dropWhile _ _
          have htw : ((t ++ v).takeWhile (fun x => x ≠ b)) = t.takeWhile (fun x => x ≠ b) := by
            conv_lhs => rw [← ht, List.append_assoc, List.cons_append]
            exact takeWhile_append_of_all hall hd0f
          have hdw2 : ((t ++ v).dropWhile (fun x => x ≠ b)) = d0 :: (u' ++ v) := by
            conv_lhs => rw [← ht, List.append_assoc, List.cons_append]
            exact dropWhile_append_of_all hall hd0f
          rw [List.cons_append, hch (t ++ v), htw, hdw2, if_neg h1, if_neg (by simp)]
          simp
    · rw [hne c t hc] at h
      exact absurd rfl h

/-- Whitespace failure for a single-delimiter scanner with a non-whitespace
opening delimiter. -/
theorem singleDelim_ws {a : Char} {F : Str → Option (Str × Str)}
    (hopn : isWs a = false)
    (hne : ∀ (c : Char) (t : Str), c ≠ a → F (c :: t) = none) :
    ∀ (c : Char) (l : Str), isWs c = true → F (c :: l) = none :=
  fun c l hc => hne c l (ws_ne_of hc hopn)

/-- Squeezing preserves failure for a single-delimiter scanner. -/
theorem singleDelim_squeeze {a b : Char} {g : Str → Str}
    {F : Str → Option (Str × Str)}
    (hopn : isWs a = false) (hcls : isWs b = false)
    (_hnil : F [] = none)
    (hne : ∀ (c : Char) (t : Str), c ≠ a → F (c :: t) = none)
    (hch : ∀ t, F (a :: t) =
      if t.takeWhile (fun x => x ≠ b) = [] then none
      else if t.dropWhile (fun x => x ≠ b) = [] then none
      else some (g (t.takeWhile (fun x => x ≠ b)), (t.dropWhile (fun x => x ≠ b)).tail)) :
    ∀ (u : Str), F u = none → F (squeezeWs u) = none := by
  intro u h
  cases u with
  | nil => exact h
  | cons c t =>
    by_cases hcw : isWs c = true
    · obtain ⟨w, hw⟩ := squeezeWs_ws_head t c hcw
      rw [hw]
      exact hne ' ' w (ws_ne_of (by decide) hopn)
    · have hc' : isWs c = false := by revert hcw; cases isWs c <;> simp
      rw [squeezeWs_cons_nws t hc']
      by_cases hc : c = a
      · subst hc
        have hws : ∀ x, isWs x = true → (fun x => decide (x ≠ b)) x = true := by
          intro x hx
          simp only [decide_eq_true_eq]
          exact ws_ne_of hx hcls
        have htw := takeWhile_squeezeWs_comm (fun x => decide (x ≠ b)) hws t
        have hdw := dropWhile_squeezeWs_comm (fun x => decide (x ≠ b)) hws t
        rw [hch t] at h
        rw [hch (squeezeWs t)]
        by_cases h1 : t.takeWhile (fun x => x ≠ b) = []
        · have : (squeezeWs t).takeWhile (fun x => x ≠ b) = [] := by
            rw [htw, h1]; rfl
          rw [if_pos this]
        · by_cases h2 : t.dropWhile (fun x => x ≠ b) = []
          · have he2 : (squeezeWs t).dropWhile (fun x => x ≠ b) = [] := by
              rw [hdw, h2]; rfl
            rw [he2]
            by_cases h3 : (squeezeWs t).takeWhile (fun x => x ≠ b) = []
            · rw [if_pos h3]
            · rw [if_neg h3, if_pos rfl]
          · rw [if_neg h1, if_neg h2] at h
            exact absurd h (by simp)
      · exact hne c (squeezeWs t) hc

/-- Head failure for the inline-code scanner. -/
theorem tryCode_ne : ∀ (c : Char) (t : Str), c ≠ '`' → tryCode (c :: t) = none := by
  intro c t hc
  simp [tryCode, hc]

/-- Match-free characterisation of the inline-code scanner. -/
theorem tryCode_char : ∀ t, tryCode ('`' :: t) =
    if t.takeWhile (fun x => x ≠ '`') = [] then none
    else if t.dropWhile (fun x => x ≠ '`') = [] then none
    else some ((fun s => s) (t.takeWhile (fun x => x ≠ '`')),
      (t.dropWhile (fun x => x ≠ '`')).tail) :=
  singleDelim_char (a := '`') (b := '`') (g := fun s => s) (F := tryCode) (fun _ => rfl)

/-- Shrinking for the inline-code scanner. -/
theorem tryCode_shrink : ∀ (cs o r : Str), tryCode cs = some (o, r) →
    o.length + r.length < cs.length :=
  singleDelim_shrink (a := '`') (b := '`') (g := fun s => s) (F := tryCode)
    (fun _ => le_refl _) rfl tryCode_ne tryCode_char

/-- Monotonicity for the inline-code scanner. -/
theorem tryCode_mono : ∀ (u v : Str), tryCode u ≠ none → tryCode (u ++ v) ≠ none :=
  singleDelim_mono (a := '`') (b := '`') (g := fun s => s) (F := tryCode)
    rfl tryCode_ne tryCode_char

/-- Whitespace failure for the inline-code scanner. -/
theorem tryCode_ws : ∀ (c : Char) (l : Str), isWs c = true → tryCode (c :: l) = none :=
  singleDelim_ws (a := '`') (F := tryCode) (by decide) tryCode_ne

/-- Failure of the inline-code scanner survives squeezing. -/
theorem tryCode_squeeze : ∀ (u : Str), tryCode u = none → tryCode (squeezeWs u) = none :=
  singleDelim_squeeze (a := '`') (b := '`') (g := fun s => s) (F := tryCode)
    (by decide) (by decide) rfl tryCode_ne tryCode_char

/-- Head failure for the single-star scanner. -/
theorem tryItalic_ne : ∀ (c : Char) (t : Str), c ≠ '*' → tryItalic (c :: t) = none := by
  intro c t hc
  simp [tryItalic, hc]

/-- Match-free characterisation of the single-star scanner. -/
theorem tryItalic_char : ∀ t, tryItalic ('*' :: t) =
    if t.takeWhile (fun x => x ≠ '*') = [] then none
    else if t.dropWhile (fun x => x ≠ '*') = [] then none
    else some ((fun s => s) (t.takeWhile (fun x => x ≠ '*')),
      (t.dropWhile (fun x => x ≠ '*')).tail) :=
  singleDelim_char (a := '*') (b := '*') (g := fun s => s) (F := tryItalic) (fun _ => rfl)

/-- Shrinking for the single-star scanner. -/
theorem tryItalic_shrink : ∀ (cs o r : Str), tryItalic cs = some (o, r) →
    o.length + r.length < cs.length :=
  singleDelim_shrink (a := '*') (b := '*') (g := fun s => s) (F := tryItalic)
    (fun _ => le_refl _) rfl tryItalic_ne tryItalic_char

/-- Monotonicity for the single-star scanner. -/
theorem tryItalic_mono : ∀ (u v : Str), tryItalic u ≠ none → tryItalic (u ++ v) ≠ none :=
  singleDelim_mono (a := '*') (b := '*') (g := fun s => s) (F := tryItalic)
    rfl tryItalic_ne tryItalic_char

/-- Whitespace failure for the single-star scanner. -/
theorem tryItalic_ws : ∀ (c : Char) (l : Str), isWs c = true → tryItalic (c :: l) = none :=
  singleDelim_ws (a := '*') (F := tryItalic) (by decide) tryItalic_ne

/-- Failure of the single-star scanner survives squeezing. -/
theorem tryItalic_squeeze : ∀ (u : Str), tryItalic u = none → tryItalic (squeezeWs u) = none :=
  singleDelim_squeeze (a := '*') (b := '*') (g := fun s => s) (F := tryItalic)
    (by decide) (by decide) rfl tryItalic_ne tryItalic_char

/-- Head failure for the tag scanner. -/
theorem tryTag_ne : ∀ (c : Char) (t : Str), c ≠ '<' → tryTag (c :: t) = none := by
  intro c t hc
  simp [tryTag, hc]

/-- Match-free characterisation of the tag scanner. -/
theorem tryTag_char : ∀ t, tryTag ('<' :: t) =
    if t.takeWhile (fun x => x ≠ '>') = [] then none
    else if t.dropWhile (fun x => x ≠ '>') = [] then none
    else some ((fun _ => []) (t.takeWhile (fun x => x ≠ '>')),
      (t.dropWhile (fun x => x ≠ '>')).tail) :=
  singleDelim_char (a := '<') (b := '>') (g := fun _ => []) (F := tryTag) (fun _ => rfl)

/-- Shrinking for the tag scanner. -/
theorem tryTag_shrink : ∀ (cs o r : Str), tryTag cs = some (o, r) →
    o.length + r.length < cs.length :=
  singleDelim_shrink (a := '<') (b := '>') (g := fun _ => []) (F := tryTag)
    (fun _ => by simp) rfl tryTag_ne tryTag_char

/-- Monotonicity for the tag scanner. -/
theorem tryTag_mono : ∀ (u v : Str), tryTag u ≠ none → tryTag (u ++ v) ≠ none :=
  singleDelim_mono (a := '<') (b := '>') (g := fun _ => []) (F := tryTag)
    rfl tryTag_ne tryTag_char

/-- Whitespace failure for the tag scanner. -/
theorem tryTag_ws : ∀ (c : Char) (l : Str), isWs c = true → tryTag (c :: l) = none :=
  singleDelim_ws (a := '<') (F := tryTag) (by decide) tryTag_ne

/-- Failure of the tag scanner survives squeezing. -/
theorem tryTag_squeeze : ∀ (u : Str), tryTag u = none → tryTag (squeezeWs u) = none :=
  singleDelim_squeeze (a := '<') (b := '>') (g := fun _ => []) (F := tryTag)
    (by decide) (by decide) rfl tryTag_ne tryTag_char

/-- Match-free characterisation of a double-delimiter scanner. -/
theorem doubleDelim_char {d : Char} {g : Str → Str}
    {F : Str → Option (Str × Str)}
    (hdef : ∀ t, F (d :: d :: t) =
      if t.takeWhile (fun x => x ≠ d) = [] then none
      else
        match t.dropWhile (fun x => x ≠ d) with
        | d0 :: d1 :: u =>
          if d0 = d ∧ d1 = d then some (g (t.takeWhile (fun x => x ≠ d)), u) else none
        | _ => none) :
    ∀ t, F (d :: d :: t) =
      if t.takeWhile (fun x => x ≠ d) = [] then none
      else if t.dropWhile (fun x => x ≠ d) = [] then none
      else if (t.dropWhile (fun x => x ≠ d)).tail = [] then none
      else if ((t.dropWhile (fun x => x ≠ d)).tail).headD d = d then
        some (g (t.takeWhile (fun x => x ≠ d)), ((t.dropWhile (fun x => x ≠ d)).tail).tail)
      else none := by
  intro t
  rw [hdef t]
  by_cases hmid : t.takeWhile (fun x => x ≠ d) = []
  · rw [if_pos hmid, if_pos hmid]
  · rw [if_neg hmid, if_neg hmid]
    cases hdw : t.dropWhile (fun x => x ≠ d) with
    | nil => rw [if_pos rfl]
    | cons d0 r2 =>
      have hd0 : d0 = d := by
        have := dropWhile_head_false (p := fun y => decide (y ≠ d)) (l := t) hdw
        simpa using this
      rw [if_neg (by simp)]
      cases r2 with
      | nil => simp
      | cons d1 u =>
        by_cases hd1 : d1 = d
        · simp [hd0, hd1]
        · simp [hd0, hd1]

/-- Shrinking for a double-delimiter scanner. -/
theorem doubleDelim_shrink {d : Char} {g : Str → Str}
    {F : Str → Option (Str × Str)}
    (hout : ∀ s, (g s).length ≤ s.length)
    (hnil : F [] = none)
    (hone : ∀ c, F [c] = none)
    (hne1 : ∀ (c : Char) (l : Str), c ≠ d → F (c :: l) = none)
    (hne2 : ∀ (c : Char) (l : Str), c ≠ d → F (d :: c :: l) = none)
    (hch : ∀ t, F (d :: d :: t) =
      if t.takeWhile (fun x => x ≠ d) = [] then none
      else if t.dropWhile (fun x => x ≠ d) = [] then none
      else if (t.dropWhile (fun x => x ≠ d)).tail = [] then none
      else if ((t.dropWhile (fun x => x ≠ d)).tail).headD d = d then
        some (g (t.takeWhile (fun x => x ≠ d)), ((t.dropWhile (fun x => x ≠ d)).tail).tail)
      else none) :
    ∀ (cs o r : Str), F cs = some (o, r) → o.length + r.length < cs.length := by
  intro cs o r h
  cases cs with
  | nil => rw [hnil] at h; exact absurd h (by simp)
  | cons c0 l =>
    by_cases hc0 : c0 = d
    · rw [hc0] at h
      cases l with
      | nil => rw [hone d] at h; exact absurd h (by simp)
      | cons c1 t =>
        by_cases hc1 : c1 = d
        · rw [hc1] at h
          rw [hch t] at h
          by_cases h1 : t.takeWhile (fun x => x ≠ d) = []
          · rw [if_pos h1] at h; exact absurd h (by simp)
          · rw [if_neg h1] at h
            by_cases h2 : t.dropWhile (fun x => x ≠ d) = []
            · rw [if_pos h2] at h; exact absurd h (by simp)
            · rw [if_neg h2] at h
              by_cases h3 : (t.dropWhile (fun x => x ≠ d)).tail = []
              · rw [if_pos h3] at h; exact absurd h (by simp)
              · rw [if_neg h3] at h
                by_cases h4 : ((t.dropWhile (fun x => x ≠ d)).tail).headD d = d
                · rw [if_pos h4] at h
                  have ho : o = g (t.takeWhile (fun x => x ≠ d)) ∧
                      r = ((t.dropWhile (fun x => x ≠ d)).tail).tail := by
                    cases h; exact ⟨rfl, rfl⟩
                  have hsum : (t.takeWhile (fun x => x ≠ d)).length +
                      (t.dropWhile (fun x => x ≠ d)).length = t.length := by
                    rw [← List.length_append, List.takeWhile_append_dropWhile]
                  have hp2 : 1 ≤ (t.dropWhile (fun x => x ≠ d)).length :=
                    List.length_pos.mpr h2
                  have hp3 : 1 ≤ ((t.dropWhile (fun x => x ≠ d)).tail).length :=
                    List.length_pos.mpr h3
                  have ht1 : ((t.dropWhile (fun x => x ≠ d)).tail).length =
                      (t.dropWhile (fun x => x ≠ d)).length - 1 := List.length_tail _
                  have ht2 : (((t.dropWhile (fun x => x ≠ d)).tail).tail).length =
                      ((t.dropWhile (fun x => x ≠ d)).tail).length - 1 := List.length_tail _
                  have hol : o.length ≤ (t.takeWhile (fun x => x ≠ d)).length := by
                    rw [ho.1]; exact hout _
                  rw [ho.2, ht2]
                  simp only [List.length_cons]
                  omega
                · rw [if_neg h4] at h; exact absurd h (by simp)
        · rw [hne2 c1 t hc1] at h; exact absurd h (by simp)
    · rw [hne1 c0 l hc0] at h; exact absurd h (by simp)

/-- A four-way guard chain is none unless all the negative guards and the
final positive guard hold. -/
theorem ifchain4_eq_none {α : Type} {A B C D : Prop}
    [Decidable A] [Decidable B] [Decidable C] [Decidable D] {x : α}
    (h : ¬ (¬ A ∧ ¬ B ∧ ¬ C ∧ D)) :
    (if A then none else if B then none else if C then none
      else if D then some x else none) = none := by
  by_cases hA : A
  · simp [hA]
  · by_cases hB : B
    · simp [hA, hB]
    · by_cases hC : C
      · simp [hA, hB, hC]
      · by_cases hD : D
        · exact absurd ⟨hA, hB, hC, hD⟩ h
        · simp [hA, hB, hC, hD]

/-- Right-append monotonicity for a double-delimiter scanner. -/
theorem doubleDelim_mono {d : Char} {g : Str → Str}
    {F : Str → Option (Str × Str)}
    (hnil : F [] = none)
    (hone : ∀ c, F [c] = none)
    (hne1 : ∀ (c : Char) (l : Str), c ≠ d → F (c :: l) = none)
    (hne2 : ∀ (c : Char) (l : Str), c ≠ d → F (d :: c :: l) = none)
    (hch : ∀ t, F (d :: d :: t) =
      if t.takeWhile (fun x => x ≠ d) = [] then none
      else if t.dropWhile (fun x => x ≠ d) = [] then none
      else if (t.dropWhile (fun x => x ≠ d)).tail = [] then none
      else if ((t.dropWhile (fun x => x ≠ d)).tail).headD d = d then
        some (g (t.takeWhile (fun x => x ≠ d)), ((t.dropWhile (fun x => x ≠ d)).tail).tail)
      else none) :
    ∀ (u v : Str), F u ≠ none → F (u ++ v) ≠ none := by
  intro u v h
  cases u with
  | nil => exact absurd hnil h
  | cons c0 l =>
    by_cases hc0 : c0 = d
    · cases l with
      | nil => rw [hc0] at h; exact absurd (hone d) h
      | cons c1 t =>
        by_cases hc1 : c1 = d
        · rw [hc0, hc1] at h
          rw [List.cons_append, List.cons_append, hc0, hc1]
          rw [hch t] at h
          by_cases h1 : t.takeWhile (fun x => x ≠ d) = []
          · rw [if_pos h1] at h; exact absurd rfl h
          · rw [if_neg h1] at h
            by_cases h2 : t.dropWhile (fun x => x ≠ d) = []
            · rw [if_pos h2] at h; exact absurd rfl h
            · rw [if_neg h2] at h
              by_cases h3 : (t.dropWhile (fun x => x ≠ d)).tail = []
              · rw [if_pos h3] at h; exact absurd rfl h
              · rw [if_neg h3] at h
                by_cases h4 : ((t.dropWhile (fun x => x ≠ d)).tail).headD d = d
                · obtain ⟨d0, r2, hdw⟩ : ∃ d0 r2, t.dropWhile (fun x => x ≠ d) = d0 :: r2 := by
                    cases hx : t.dropWhile (fun x => x ≠ d) with
                    | nil => exact absurd hx h2
                    | cons d0 r2 => exact ⟨d0, r2, rfl⟩
                  have hd0 : d0 = d := by
                    have := dropWhile_head_false (p := fun y => decide (y ≠ d)) (l := t) hdw
                    simpa using this
                  obtain ⟨d1, u2, hr2⟩ : ∃ d1 u2, r2 = d1 :: u2 := by
                    cases hx : r2 with
                    | nil => rw [hdw, hx] at h3; exact absurd rfl h3
                    | cons d1 u2 => exact ⟨d1, u2, rfl⟩
                  have hd1 : d1 = d := by
                    rw [hdw, hr2] at h4
                    simpa using h4
                  have hall : ∀ x ∈ t.takeWhile (fun x => x ≠ d),
                      (fun y => decide (y ≠ d)) x = true :=
                    fun x hx => mem_takeWhile_pred (p := fun y => decide (y ≠ d)) (l := t) hx
                  have ht : t.takeWhile (fun x => x ≠ d) ++ (d0 :: r2) = t := by
                    rw [← hdw]; exact List.takeWhile_append_dropWhile _ _
                  have htw : ((t ++ v).takeWhile (fun x => x ≠ d)) =
                      t.takeWhile (fun x => x ≠ d) := by
                    conv_lhs => rw [← ht, List.append_assoc, List.cons_append]
                    exact takeWhile_append_of_all hall (by simp [hd0])
                  have hdw2 : ((t ++ v).dropWhile (fun x => x ≠ d)) = d0 :: (r2 ++ v) := by
                    conv_lhs => rw [← ht, List.append_assoc, List.cons_append]
                    exact dropWhile_append_of_all hall (by simp [hd0])
                  rw [hch (t ++ v), htw, hdw2, if_neg h1, if_neg (by simp)]
                  rw [hr2]
                  simp [hd1]
                · rw [if_neg h4] at h; exact absurd rfl h
        · rw [hc0] at h; exact absurd (hne2 c1 t hc1) h
    · exact absurd (hne1 c0 l hc0) h

/-- Whitespace failure for a double-delimiter scanner. -/
theorem doubleDelim_ws {d : Char} {F : Str → Option (Str × Str)}
    (hdl : isWs d = false)
    (hne1 : ∀ (c : Char) (l : Str), c ≠ d → F (c :: l) = none) :
    ∀ (c : Char) (l : Str), isWs c = true → F (c :: l) = none :=
  fun c l hc => hne1 c l (ws_ne_of hc hdl)

/-- Squeezing preserves failure for a double-delimiter scanner. -/
theorem doubleDelim_squeeze {d : Char} {g : Str → Str}
    {F : Str → Option (Str × Str)}
    (hdl : isWs d = false)
    (hone : ∀ c, F [c] = none)
    (hne1 : ∀ (c : Char) (l : Str), c ≠ d → F (c :: l) = none)
    (hne2 : ∀ (c : Char) (l : Str), c ≠ d → F (d :: c :: l) = none)
    (hch : ∀ t, F (d :: d :: t) =
      if t.takeWhile (fun x => x ≠ d) = [] then none
      else if t.dropWhile (fun x => x ≠ d) = [] then none
      else if (t.dropWhile (fun x => x ≠ d)).tail = [] then none
      else if ((t.dropWhile (fun x => x ≠ d)).tail).headD d = d then
        some (g (t.takeWhile (fun x => x ≠ d)), ((t.dropWhile (fun x => x ≠ d)).tail).tail)
      else none) :
    ∀ (u : Str), F u = none → F (squeezeWs u) = none := by
  intro u h
  cases u with
  | nil => exact h
  | cons c l =>
    by_cases hcw : isWs c = true
    · obtain ⟨w, hw⟩ := squeezeWs_ws_head l c hcw
      rw [hw]
      exact hne1 ' ' w (ws_ne_of (by decide) hdl)
    · have hc' : isWs c = false := by revert hcw; cases isWs c <;> simp
      rw [squeezeWs_cons_nws l hc']
      by_cases hc : c = d
      · rw [hc]
        cases l with
        | nil => exact hone d
        | cons c1 t =>
          by_cases hc1w : isWs c1 = true
          · obtain ⟨w, hw⟩ := squeezeWs_ws_head t c1 hc1w
            rw [hw]
            exact hne2 ' ' w (ws_ne_of (by decide) hdl)
          · have hc1' : isWs c1 = false := by revert hc1w; cases isWs c1 <;> simp
            rw [squeezeWs_cons_nws t hc1']
            by_cases hc1 : c1 = d
            · rw [hc1]
              rw [hc, hc1] at h
              have hws : ∀ x, isWs x = true → (fun y => decide (y ≠ d)) x = true := by
                intro x hx
                simp only [decide_eq_true_eq]
                exact ws_ne_of hx hdl
              have htw := takeWhile_squeezeWs_comm (fun y => decide (y ≠ d)) hws t
              have hdwc := dropWhile_squeezeWs_comm (fun y => decide (y ≠ d)) hws t
              rw [hch (squeezeWs t)]
              apply ifchain4_eq_none
              rintro ⟨n1, n2, n3, n4⟩
              have h1 : ¬ (t.takeWhile (fun x => x ≠ d) = []) := by
                intro hx
                apply n1
                rw [htw, hx]
                rfl
              have h2 : ¬ (t.dropWhile (fun x => x ≠ d) = []) := by
                intro hx
                apply n2
                rw [hdwc, hx]
                rfl
              obtain ⟨d0, r2, hdw⟩ : ∃ d0 r2, t.dropWhile (fun x => x ≠ d) = d0 :: r2 := by
                cases hx : t.dropWhile (fun x => x ≠ d) with
                | nil => exact absurd hx h2
                | cons d0 r2 => exact ⟨d0, r2, rfl⟩
              have hd0 : d0 = d := by
                have := dropWhile_head_false (p := fun y => decide (y ≠ d)) (l := t) hdw
                simpa using this
              have hsqdw : (squeezeWs t).dropWhile (fun x => x ≠ d) = d :: squeezeWs r2 := by
                rw [hdwc, hdw, hd0, squeezeWs_cons_nws r2 hdl]
              obtain ⟨d1, u2, hr2⟩ : ∃ d1 u2, r2 = d1 :: u2 := by
                cases hx : r2 with
                | nil =>
                  exfalso
                  apply n3
                  rw [hsqdw, hx]
                  rfl
                | cons d1 u2 => exact ⟨d1, u2, rfl⟩
              have hd1 : d1 = d := by
                by_contra hd1
                by_cases hd1w : isWs d1 = true
                · obtain ⟨w, hw⟩ := squeezeWs_ws_head u2 d1 hd1w
                  rw [hsqdw, hr2, hw] at n4
                  simp only [List.tail_cons, List.headD_cons] at n4
                  exact (ws_ne_of (by decide : isWs ' ' = true) hdl) n4
                · have hd1' : isWs d1 = false := by revert hd1w; cases isWs d1 <;> simp
                  rw [hsqdw, hr2, squeezeWs_cons_nws u2 hd1'] at n4
                  simp only [List.tail_cons, List.headD_cons] at n4
                  exact hd1 n4
              rw [hch t, if_neg h1, if_neg h2, hdw, hr2] at h
              simp only [List.tail_cons, List.headD_cons] at h
              rw [if_neg (by simp), if_pos hd1] at h
              exact absurd h (by simp)
            · exact hne2 c1 (squeezeWs t) hc1
      · exact hne1 c (squeezeWs l) hc

/-- Head failure for the double-star scanner. -/
theorem tryBold_ne1 : ∀ (c : Char) (l : Str), c ≠ '*' → tryBold (c :: l) = none := by
  intro c l hc
  cases l with
  | nil => rfl
  | cons c1 t => simp [tryBold, hc]

/-- Second-character failure for the double-star scanner. -/
theorem tryBold_ne2 : ∀ (c : Char) (l : Str), c ≠ '*' → tryBold ('*' :: c :: l) = none := by
  intro c l hc
  simp [tryBold, hc]

/-- Match-free characterisation of the double-star scanner. -/
theorem tryBold_char : ∀ t, tryBold ('*' :: '*' :: t) =
    if t.takeWhile (fun x => x ≠ '*') = [] then none
    else if t.dropWhile (fun x => x ≠ '*') = [] then none
    else if (t.dropWhile (fun x => x ≠ '*')).tail = [] then none
    else if ((t.dropWhile (fun x => x ≠ '*')).tail).headD '*' = '*' then
      some ((fun s => s) (t.takeWhile (fun x => x ≠ '*')),
        ((t.dropWhile (fun x => x ≠ '*')).tail).tail)
    else none :=
  doubleDelim_char (d := '*') (g := fun s => s) (F := tryBold) (fun _ => rfl)

/-- Shrinking for the double-star scanner. -/
theorem tryBold_shrink : ∀ (cs o r : Str), tryBold cs = some (o, r) →
    o.length + r.length < cs.length :=
  doubleDelim_shrink (d := '*') (g := fun s => s) (F := tryBold)
    (fun _ => le_refl _) rfl (fun _ => rfl) tryBold_ne1 tryBold_ne2 tryBold_char

/-- Monotonicity for the double-star scanner. -/
theorem tryBold_mono : ∀ (u v : Str), tryBold u ≠ none → tryBold (u ++ v) ≠ none :=
  doubleDelim_mono (d := '*') (g := fun s => s) (F := tryBold)
    rfl (fun _ => rfl) tryBold_ne1 tryBold_ne2 tryBold_char

/-- Whitespace failure for the double-star scanner. -/
theorem tryBold_ws : ∀ (c : Char) (l : Str), isWs c = true → tryBold (c :: l) = none :=
  doubleDelim_ws (d := '*') (F := tryBold) (by decide) tryBold_ne1

/-- Failure of the double-star scanner survives squeezing. -/
theorem tryBold_squeeze : ∀ (u : Str), tryBold u = none → tryBold (squeezeWs u) = none :=
  doubleDelim_squeeze (d := '*') (g := fun s => s) (F := tryBold)
    (by decide) (fun _ => rfl) tryBold_ne1 tryBold_ne2 tryBold_char

/-- Head failure for the double-tilde scanner. -/
theorem tryStrike_ne1 : ∀ (c : Char) (l : Str), c ≠ '~' → tryStrike (c :: l) = none := by
  intro c l hc
  cases l with
  | nil => rfl
  | cons c1 t => simp [tryStrike, hc]

/-- Second-character failure for the double-tilde scanner. -/
theorem tryStrike_ne2 : ∀ (c : Char) (l : Str), c ≠ '~' → tryStrike ('~' :: c :: l) = none := by
  intro c l hc
  simp [tryStrike, hc]

/-- Match-free characterisation of the double-tilde scanner. -/
theorem tryStrike_char : ∀ t, tryStrike ('~' :: '~' :: t) =
    if t.takeWhile (fun x => x ≠ '~') = [] then none
    else if t.dropWhile (fun x => x ≠ '~') = [] then none
    else if (t.dropWhile (fun x => x ≠ '~')).tail = [] then none
    else if ((t.dropWhile (fun x => x ≠ '~')).tail).headD '~' = '~' then
      some ((fun s => s) (t.takeWhile (fun x => x ≠ '~')),
        ((t.dropWhile (fun x => x ≠ '~')).tail).tail)
    else none :=
  doubleDelim_char (d := '~') (g := fun s => s) (F := tryStrike) (fun _ => rfl)

/-- Shrinking for the double-tilde scanner. -/
theorem tryStrike_shrink : ∀ (cs o r : Str), tryStrike cs = some (o, r) →
    o.length + r.length < cs.length :=
  doubleDelim_shrink (d := '~') (g := fun s => s) (F := tryStrike)
    (fun _ => le_refl _) rfl (fun _ => rfl) tryStrike_ne1 tryStrike_ne2 tryStrike_char

/-- Monotonicity for the double-tilde scanner. -/
theorem tryStrike_mono : ∀ (u v : Str), tryStrike u ≠ none → tryStrike (u ++ v) ≠ none :=
  doubleDelim_mono (d := '~') (g := fun s => s) (F := tryStrike)
    rfl (fun _ => rfl) tryStrike_ne1 tryStrike_ne2 tryStrike_char

/-- Whitespace failure for the double-tilde scanner. -/
theorem tryStrike_ws : ∀ (c : Char) (l : Str), isWs c = true → tryStrike (c :: l) = none :=
  doubleDelim_ws (d := '~') (F := tryStrike) (by decide) tryStrike_ne1

/-- Failure of the double-tilde scanner survives squeezing. -/
theorem tryStrike_squeeze : ∀ (u : Str), tryStrike u = none → tryStrike (squeezeWs u) = none :=
  doubleDelim_squeeze (d := '~') (g := fun s => s) (F := tryStrike)
    (by decide) (fun _ => rfl) tryStrike_ne1 tryStrike_ne2 tryStrike_char

/-- A four-way guard chain with an arbitrary tail is none when the tail is
none under the surviving guards. -/
theorem ifchain4_none_tail {α : Type} {A B C D : Prop}
    [Decidable A] [Decidable B] [Decidable C] [Decidable D] {x : Option α}
    (h : ¬ A → ¬ B → ¬ C → D → x = none) :
    (if A then none else if B then none else if C then none
      else if D then x else none) = none := by
  by_cases hA : A
  · simp [hA]
  · by_cases hB : B
    · simp [hA, hB]
    · by_cases hC : C
      · simp [hA, hB, hC]
      · by_cases hD : D
        · rw [if_neg hA, if_neg hB, if_neg hC, if_pos hD]
          exact h hA hB hC hD
        · simp [hA, hB, hC, hD]

/-- Head failure for the link scanner. -/
theorem tryLink_ne : ∀ (c : Char) (t : Str), c ≠ '[' → tryLink (c :: t) = none := by
  intro c t hc
  simp [tryLink, hc]

/-- Definitional unfolding of the link scanner at its opening bracket. -/
theorem tryLink_def : ∀ t, tryLink ('[' :: t) =
    match t.dropWhile (fun x => x ≠ ']') with
    | c1 :: c2 :: v =>
      if c1 = ']' ∧ c2 = '(' then
        if t.takeWhile (fun x => x ≠ ']') = [] then none
        else
          match v.dropWhile (fun x => x ≠ ')') with
          | c3 :: w =>
            if c3 = ')' then
              (if v.takeWhile (fun x => x ≠ ')') = [] then none
               else some (t.takeWhile (fun x => x ≠ ']'), w))
            else none
          | [] => none
      else none
    | _ => none :=
  fun _ => rfl

/-- Match-free characterisation of the link scanner. -/
theorem tryLink_char : ∀ t, tryLink ('[' :: t) =
    if t.takeWhile (fun x => x ≠ ']') = [] then none
    else if t.dropWhile (fun x => x ≠ ']') = [] then none
    else if (t.dropWhile (fun x => x ≠ ']')).tail = [] then none
    else if ((t.dropWhile (fun x => x ≠ ']')).tail).headD ']' = '(' then
      linkTail (t.takeWhile (fun x => x ≠ ']')) (((t.dropWhile (fun x => x ≠ ']')).tail).tail)
    else none := by
  intro t
  rw [tryLink_def t]
  cases hdw : t.dropWhile (fun x => x ≠ ']') with
  | nil => simp
  | cons c1 r2 =>
    have hc1 : c1 = ']' := by
      have := dropWhile_head_false (p := fun y => decide (y ≠ ']')) (l := t) hdw
      simpa using this
    subst hc1
    cases r2 with
    | nil => simp
    | cons c2 v =>
      by_cases hc2 : c2 = '('
      · subst hc2
        show (if t.takeWhile (fun x => x ≠ ']') = [] then (none : Option (Str × Str))
          else
            match v.dropWhile (fun x => x ≠ ')') with
            | c3 :: w =>
              if c3 = ')' then
                (if v.takeWhile (fun x => x ≠ ')') = [] then none
                 else some (t.takeWhile (fun x => x ≠ ']'), w))
              else none
            | [] => none) = _
        by_cases h1 : t.takeWhile (fun x => x ≠ ']') = []
        · rw [if_pos h1, if_pos h1]
        · rw [if_neg h1, if_neg h1]
          simp only [List.tail_cons, List.headD_cons]
          rw [if_neg (List.cons_ne_nil _ _), if_neg (List.cons_ne_nil _ _), if_pos trivial]
          cases hvd : v.dropWhile (fun x => x ≠ ')') with
          | nil =>
            show (none : Option (Str × Str)) = _
            unfold linkTail
            rw [hvd]
            by_cases h5 : v.takeWhile (fun x => x ≠ ')') = []
            · rw [if_pos h5]
            · rw [if_neg h5, if_pos rfl]
          | cons c3 w =>
            have hc3 : c3 = ')' := by
              have := dropWhile_head_false (p := fun y => decide (y ≠ ')')) (l := v) hvd
              simpa using this
            subst hc3
            show (if (')' : Char) = ')' then
                (if v.takeWhile (fun x => x ≠ ')') = [] then none
                 else some (t.takeWhile (fun x => x ≠ ']'), w))
              else none) = _
            rw [if_pos rfl]
            unfold linkTail
            rw [hvd]
            by_cases h5 : v.takeWhile (fun x => x ≠ ')') = []
            · rw [if_pos h5, if_pos h5]
            · rw [if_neg h5, if_neg h5, if_neg (List.cons_ne_nil _ _)]
              rfl
      · simp [hc2]

/-- Shrinking for the link scanner. -/
theorem tryLink_shrink : ∀ (cs o r : Str), tryLink cs = some (o, r) →
    o.length + r.length < cs.length := by
  intro cs o r h
  cases cs with
  | nil => exact absurd h (by simp [tryLink])
  | cons c t =>
    by_cases hc : c = '['
    · rw [hc, tryLink_char t] at h
      by_cases h1 : t.takeWhile (fun x => x ≠ ']') = []
      · rw [if_pos h1] at h; exact absurd h (by simp)
      · rw [if_neg h1] at h
        by_cases h2 : t.dropWhile (fun x => x ≠ ']') = []
        · rw [if_pos h2] at h; exact absurd h (by simp)
        · rw [if_neg h2] at h
          by_cases h3 : (t.dropWhile (fun x => x ≠ ']')).tail = []
          · rw [if_pos h3] at h; exact absurd h (by simp)
          · rw [if_neg h3] at h
            by_cases h4 : ((t.dropWhile (fun x => x ≠ ']')).tail).headD ']' = '('
            · rw [if_pos h4] at h
              unfold linkTail at h
              by_cases h5 : (((t.dropWhile (fun x => x ≠ ']')).tail).tail).takeWhile
                  (fun x => x ≠ ')') = []
              · rw [if_pos h5] at h; exact absurd h (by simp)
              · rw [if_neg h5] at h
                by_cases h6 : (((t.dropWhile (fun x => x ≠ ']')).tail).tail).dropWhile
                    (fun x => x ≠ ')') = []
                · rw [if_pos h6] at h; exact absurd h (by simp)
                · rw [if_neg h6] at h
                  have ho : o = t.takeWhile (fun x => x ≠ ']') ∧
                      r = ((((t.dropWhile (fun x => x ≠ ']')).tail).tail).dropWhile
                        (fun x => x ≠ ')')).tail := by
                    cases h; exact ⟨rfl, rfl⟩
                  have hs1 : (t.takeWhile (fun x => x ≠ ']')).length +
                      (t.dropWhile (fun x => x ≠ ']')).length = t.length := by
                    rw [← List.length_append, List.takeWhile_append_dropWhile]
                  have hs2 : ((((t.dropWhile (fun x => x ≠ ']')).tail).tail).takeWhile
                        (fun x => x ≠ ')')).length +
                      ((((t.dropWhile (fun x => x ≠ ']')).tail).tail).dropWhile
                        (fun x => x ≠ ')')).length =
                      (((t.dropWhile (fun x => x ≠ ']')).tail).tail).length := by
                    rw [← List.length_append, List.takeWhile_append_dropWhile]
                  have hp2 : 1 ≤ (t.dropWhile (fun x => x ≠ ']')).length :=
                    List.length_pos.mpr h2
                  have hp3 : 1 ≤ ((t.dropWhile (fun x => x ≠ ']')).tail).length :=
                    List.length_pos.mpr h3
                  have hp6 : 1 ≤ ((((t.dropWhile (fun x => x ≠ ']')).tail).tail).dropWhile
                      (fun x => x ≠ ')')).length :=
                    List.length_pos.mpr h6
                  have ht1 : ((t.dropWhile (fun x => x ≠ ']')).tail).length =
                      (t.dropWhile (fun x => x ≠ ']')).length - 1 := List.length_tail _
                  have ht2 : (((t.dropWhile (fun x => x ≠ ']')).tail).tail).length =
                      ((t.dropWhile (fun x => x ≠ ']')).tail).length - 1 := List.length_tail _
                  have ht3 : (((((t.dropWhile (fun x => x ≠ ']')).tail).tail).dropWhile
                        (fun x => x ≠ ')')).tail).length =
                      ((((t.dropWhile (fun x => x ≠ ']')).tail).tail).dropWhile
                        (fun x => x ≠ ')')).length - 1 := List.length_tail _
                  rw [ho.1, ho.2, ht3]
                  simp only [List.length_cons]
                  omega
            · rw [if_neg h4] at h; exact absurd h (by simp)
    · rw [tryLink_ne c t hc] at h
      exact absurd h (by simp)

/-- Right-append monotonicity for the link scanner. -/
theorem tryLink_mono : ∀ (u v0 : Str), tryLink u ≠ none → tryLink (u ++ v0) ≠ none := by
  intro u v0 h
  cases u with
  | nil => exact absurd rfl h
  | cons c t =>
    by_cases hc : c = '['
    · rw [hc] at h
      rw [List.cons_append, hc]
      rw [tryLink_char t] at h
      by_cases h1 : t.takeWhile (fun x => x ≠ ']') = []
      · rw [if_pos h1] at h; exact absurd rfl h
      · rw [if_neg h1] at h
        by_cases h2 : t.dropWhile (fun x => x ≠ ']') = []
        · rw [if_pos h2] at h; exact absurd rfl h
        · rw [if_neg h2] at h
          by_cases h3 : (t.dropWhile (fun x => x ≠ ']')).tail = []
          · rw [if_pos h3] at h; exact absurd rfl h
          · rw [if_neg h3] at h
            by_cases h4 : ((t.dropWhile (fun x => x ≠ ']')).tail).headD ']' = '('
            · rw [if_pos h4] at h
              obtain ⟨d0, r2, hdw⟩ : ∃ d0 r2, t.dropWhile (fun x => x ≠ ']') = d0 :: r2 := by
                cases hx : t.dropWhile (fun x => x ≠ ']') with
                | nil => exact absurd hx h2
                | cons d0 r2 => exact ⟨d0, r2, rfl⟩
              have hd0 : d0 = ']' := by
                have := dropWhile_head_false (p := fun y => decide (y ≠ ']')) (l := t) hdw
                simpa using this
              obtain ⟨d1, v, hr2⟩ : ∃ d1 v, r2 = d1 :: v := by
                cases hx : r2 with
                | nil => rw [hdw, hx] at h3; exact absurd rfl h3
                | cons d1 v => exact ⟨d1, v, rfl⟩
              have hd1 : d1 = '(' := by
                rw [hdw, hr2] at h4
                simpa using h4
              rw [hdw, hr2] at h
              simp only [List.tail_cons] at h
              unfold linkTail at h
              by_cases h5 : v.takeWhile (fun x => x ≠ ')') = []
              · rw [if_pos h5] at h; exact absurd rfl h
              · rw [if_neg h5] at h
                by_cases h6 : v.dropWhile (fun x => x ≠ ')') = []
                · rw [if_pos h6] at h; exact absurd rfl h
                · obtain ⟨e0, w, hvd⟩ : ∃ e0 w, v.dropWhile (fun x => x ≠ ')') = e0 :: w := by
                    cases hx : v.dropWhile (fun x => x ≠ ')') with
                    | nil => exact absurd hx h6
                    | cons e0 w => exact ⟨e0, w, rfl⟩
                  have he0 : e0 = ')' := by
                    have := dropWhile_head_false (p := fun y => decide (y ≠ ')')) (l := v) hvd
                    simpa using this
                  have hall1 : ∀ x ∈ t.takeWhile (fun x => x ≠ ']'),
                      (fun y => decide (y ≠ ']')) x = true :=
                    fun x hx => mem_takeWhile_pred (p := fun y => decide (y ≠ ']')) (l := t) hx
                  have ht : t.takeWhile (fun x => x ≠ ']') ++ (d0 :: r2) = t := by
                    rw [← hdw]; exact List.takeWhile_append_dropWhile _ _
                  have htw2 : ((t ++ v0).takeWhile (fun x => x ≠ ']')) =
                      t.takeWhile (fun x => x ≠ ']') := by
                    conv_lhs => rw [← ht, List.append_assoc, List.cons_append]
                    exact takeWhile_append_of_all hall1 (by simp [hd0])
                  have hdw2 : ((t ++ v0).dropWhile (fun x => x ≠ ']')) = d0 :: (r2 ++ v0) := by
                    conv_lhs => rw [← ht, List.append_assoc, List.cons_append]
                    exact dropWhile_append_of_all hall1 (by simp [hd0])
                  rw [tryLink_char (t ++ v0), htw2, hdw2, if_neg h1, if_neg (by simp)]
                  rw [hr2]
                  simp only [List.cons_append, List.tail_cons, List.headD_cons]
                  rw [if_neg (List.cons_ne_nil _ _), if_pos hd1]
                  have hall2 : ∀ x ∈ v.takeWhile (fun x => x ≠ ')'),
                      (fun y => decide (y ≠ ')')) x = true :=
                    fun x hx => mem_takeWhile_pred (p := fun y => decide (y ≠ ')')) (l := v) hx
                  have hv : v.takeWhile (fun x => x ≠ ')') ++ (e0 :: w) = v := by
                    rw [← hvd]; exact List.takeWhile_append_dropWhile _ _
                  have hvtw2 : ((v ++ v0).takeWhile (fun x => x ≠ ')')) =
                      v.takeWhile (fun x => x ≠ ')') := by
                    conv_lhs => rw [← hv, List.append_assoc, List.cons_append]
                    exact takeWhile_append_of_all hall2 (by simp [he0])
                  have hvdw2 : ((v ++ v0).dropWhile (fun x => x ≠ ')')) = e0 :: (w ++ v0) := by
                    conv_lhs => rw [← hv, List.append_assoc, List.cons_append]
                    exact dropWhile_append_of_all hall2 (by simp [he0])
                  unfold linkTail
                  rw [hvtw2, hvdw2, if_neg h5, if_neg (by simp)]
                  simp
            · rw [if_neg h4] at h; exact absurd rfl h
    · exact absurd (tryLink_ne c t hc) h

/-- Whitespace failure for the link scanner. -/
theorem tryLink_ws : ∀ (c : Char) (l : Str), isWs c = true → tryLink (c :: l) = none :=
  fun c l hc => tryLink_ne c l (ws_ne_of hc (by decide))

/-- Failure of the link scanner survives squeezing. -/
theorem tryLink_squeeze : ∀ (u : Str), tryLink u = none → tryLink (squeezeWs u) = none := by
  intro u h
  cases u with
  | nil => exact h
  | cons c l =>
    by_cases hcw : isWs c = true
    · obtain ⟨w, hw⟩ := squeezeWs_ws_head l c hcw
      rw [hw]
      exact tryLink_ne ' ' w (by decide)
    · have hc' : isWs c = false := by revert hcw; cases isWs c <;> simp
      rw [squeezeWs_cons_nws l hc']
      by_cases hc : c = '['
      · rw [hc] at h ⊢
        rw [tryLink_char l] at h
        rw [tryLink_char (squeezeWs l)]
        have hws1 : ∀ x, isWs x = true → (fun y => decide (y ≠ ']')) x = true := by
          intro x hx
          simp only [decide_eq_true_eq]
          exact ws_ne_of hx (by decide)
        have htw := takeWhile_squeezeWs_comm (fun y => decide (y ≠ ']')) hws1 l
        have hdwc := dropWhile_squeezeWs_comm (fun y => decide (y ≠ ']')) hws1 l
        apply ifchain4_none_tail
        intro n1 n2 n3 n4
        have h1 : ¬ (l.takeWhile (fun x => x ≠ ']') = []) := by
          intro hx; apply n1; rw [htw, hx]; rfl
        have h2 : ¬ (l.dropWhile (fun x => x ≠ ']') = []) := by
          intro hx; apply n2; rw [hdwc, hx]; rfl
        obtain ⟨d0, r2, hdw⟩ : ∃ d0 r2, l.dropWhile (fun x => x ≠ ']') = d0 :: r2 := by
          cases hx : l.dropWhile (fun x => x ≠ ']') with
          | nil => exact absurd hx h2
          | cons d0 r2 => exact ⟨d0, r2, rfl⟩
        have hd0 : d0 = ']' := by
          have := dropWhile_head_false (p := fun y => decide (y ≠ ']')) (l := l) hdw
          simpa using this
        have hsqdw : (squeezeWs l).dropWhile (fun x => x ≠ ']') = ']' :: squeezeWs r2 := by
          rw [hdwc, hdw, hd0, squeezeWs_cons_nws r2 (by decide)]
        obtain ⟨d1, v, hr2⟩ : ∃ d1 v, r2 = d1 :: v := by
          cases hx : r2 with
          | nil => exfalso; apply n3; rw [hsqdw, hx]; rfl
          | cons d1 v => exact ⟨d1, v, rfl⟩
        have hd1nw : isWs d1 = false := by
          by_contra hd1w
          have hd1w' : isWs d1 = true := by revert hd1w; cases isWs d1 <;> simp
          obtain ⟨w2, hw2⟩ := squeezeWs_ws_head v d1 hd1w'
          rw [hsqdw, hr2, hw2] at n4
          simp only [List.tail_cons, List.headD_cons] at n4
          exact absurd n4 (by decide)
        have hsq2 : squeezeWs r2 = d1 :: squeezeWs v := by
          rw [hr2, squeezeWs_cons_nws v hd1nw]
        have hd1 : d1 = '(' := by
          rw [hsqdw, hsq2] at n4
          simpa using n4
        rw [if_neg h1, if_neg h2, hdw, hr2] at h
        simp only [List.tail_cons, List.headD_cons] at h
        rw [if_neg (List.cons_ne_nil _ _), if_pos hd1] at h
        rw [htw, hsqdw, hsq2]
        simp only [List.tail_cons]
        have hws2 : ∀ x, isWs x = true → (fun y => decide (y ≠ ')')) x = true := by
          intro x hx
          simp only [decide_eq_true_eq]
          exact ws_ne_of hx (by decide)
        have hvtw := takeWhile_squeezeWs_comm (fun y => decide (y ≠ ')')) hws2 v
        have hvdw := dropWhile_squeezeWs_comm (fun y => decide (y ≠ ')')) hws2 v
        unfold linkTail at h ⊢
        rw [hvtw, hvdw]
        by_cases h5 : v.takeWhile (fun x => x ≠ ')') = []
        · rw [h5, if_pos (show squeezeWs ([] : Str) = [] from rfl)]
        · rw [if_neg h5] at h
          by_cases h6 : v.dropWhile (fun x => x ≠ ')') = []
          · rw [h6]
            by_cases ha : squeezeWs (v.takeWhile (fun x => x ≠ ')')) = []
            · rw [if_pos ha]
            · rw [if_neg ha, if_pos (show squeezeWs ([] : Str) = [] from rfl)]
          · rw [if_neg h6] at h
            exact absurd h (by simp)
      · exact tryLink_ne c (squeezeWs l) hc

/-- A three-way guard chain with an arbitrary tail is none when the tail is
none under the surviving guards. -/
theorem ifchain3_none_tail {α : Type} {A B C : Prop}
    [Decidable A] [Decidable B] [Decidable C] {x : Option α}
    (h : ¬ A → ¬ B → C → x = none) :
    (if A then none else if B then none else if C then x else none) = none := by
  by_cases hA : A
  · simp [hA]
  · by_cases hB : B
    · simp [hA, hB]
    · by_cases hC : C
      · rw [if_neg hA, if_neg hB, if_pos hC]
        exact h hA hB hC
      · simp [hA, hB, hC]

/-- First-character failure for the image scanner. -/
theorem tryImage_ne1 : ∀ (c : Char) (l : Str), c ≠ '!' → tryImage (c :: l) = none := by
  intro c l hc
  cases l with
  | nil => rfl
  | cons c1 m => simp [tryImage, hc]

/-- Second-character failure for the image scanner. -/
theorem tryImage_ne2 : ∀ (c : Char) (l : Str), c ≠ '[' → tryImage ('!' :: c :: l) = none := by
  intro c l hc
  simp [tryImage, hc]

/-- Definitional unfolding of the image scanner at its two-character prefix. -/
theorem tryImage_def : ∀ t, tryImage ('!' :: '[' :: t) =
    match t.dropWhile (fun x => x ≠ ']') with
    | c1 :: c2 :: v =>
      if c1 = ']' ∧ c2 = '(' then
        match v.dropWhile (fun x => x ≠ ')') with
        | c3 :: w =>
          if c3 = ')' then
            (if v.takeWhile (fun x => x ≠ ')') = [] then none else some ([], w))
          else none
        | [] => none
      else none
    | _ => none :=
  fun _ => rfl

/-- Match-free characterisation of the image scanner. -/
theorem tryImage_char : ∀ t, tryImage ('!' :: '[' :: t) =
    if t.dropWhile (fun x => x ≠ ']') = [] then none
    else if (t.dropWhile (fun x => x ≠ ']')).tail = [] then none
    else if ((t.dropWhile (fun x => x ≠ ']')).tail).headD ']' = '(' then
      linkTail [] (((t.dropWhile (fun x => x ≠ ']')).tail).tail)
    else none := by
  intro t
  rw [tryImage_def t]
  cases hdw : t.dropWhile (fun x => x ≠ ']') with
  | nil => simp
  | cons c1 r2 =>
    have hc1 : c1 = ']' := by
      have := dropWhile_head_false (p := fun y => decide (y ≠ ']')) (l := t) hdw
      simpa using this
    subst hc1
    cases r2 with
    | nil => simp
    | cons c2 v =>
      by_cases hc2 : c2 = '('
      · subst hc2
        show (match v.dropWhile (fun x => x ≠ ')') with
          | c3 :: w =>
            if c3 = ')' then
              (if v.takeWhile (fun x => x ≠ ')') = [] then (none : Option (Str × Str))
               else some ([], w))
            else none
          | [] => none) = _
        rw [if_neg (List.cons_ne_nil _ _)]
        simp only [List.tail_cons, List.headD_cons]
        rw [if_neg (List.cons_ne_nil _ _), if_pos trivial]
        cases hvd : v.dropWhile (fun x => x ≠ ')') with
        | nil =>
          show (none : Option (Str × Str)) = _
          unfold linkTail
          rw [hvd]
          by_cases h5 : v.takeWhile (fun x => x ≠ ')') = []
          · rw [if_pos h5]
          · rw [if_neg h5, if_pos rfl]
        | cons c3 w =>
          have hc3 : c3 = ')' := by
            have := dropWhile_head_false (p := fun y => decide (y ≠ ')')) (l := v) hvd
            simpa using this
          subst hc3
          show (if (')' : Char) = ')' then
              (if v.takeWhile (fun x => x ≠ ')') = [] then none
               else some (([] : Str), w))
            else none) = _
          rw [if_pos rfl]
          unfold linkTail
          rw [hvd]
          by_cases h5 : v.takeWhile (fun x => x ≠ ')') = []
          · rw [if_pos h5, if_pos h5]
          · rw [if_neg h5, if_neg h5, if_neg (List.cons_ne_nil _ _)]
            rfl
      · simp [hc2]

/-- Shrinking for the image scanner. -/
theorem tryImage_shrink : ∀ (cs o r : Str), tryImage cs = some (o, r) →
    o.length + r.length < cs.length := by
  intro cs o r h
  cases cs with
  | nil => exact absurd h (by simp [tryImage])
  | cons c0 l =>
    cases l with
    | nil => exact absurd h (by simp [tryImage])
    | cons c1 t =>
      by_cases hc0 : c0 = '!'
      · by_cases hc1 : c1 = '['
        · rw [hc0, hc1, tryImage_char t] at h
          by_cases h2 : t.dropWhile (fun x => x ≠ ']') = []
          · rw [if_pos h2] at h; exact absurd h (by simp)
          · rw [if_neg h2] at h
            by_cases h3 : (t.dropWhile (fun x => x ≠ ']')).tail = []
            · rw [if_pos h3] at h; exact absurd h (by simp)
            · rw [if_neg h3] at h
              by_cases h4 : ((t.dropWhile (fun x => x ≠ ']')).tail).headD ']' = '('
              · rw [if_pos h4] at h
                unfold linkTail at h
                by_cases h5 : (((t.dropWhile (fun x => x ≠ ']')).tail).tail).takeWhile
                    (fun x => x ≠ ')') = []
                · rw [if_pos h5] at h; exact absurd h (by simp)
                · rw [if_neg h5] at h
                  by_cases h6 : (((t.dropWhile (fun x => x ≠ ']')).tail).tail).dropWhile
                      (fun x => x ≠ ')') = []
                  · rw [if_pos h6] at h; exact absurd h (by simp)
                  · rw [if_neg h6] at h
                    have ho : o = ([] : Str) ∧
                        r = ((((t.dropWhile (fun x => x ≠ ']')).tail).tail).dropWhile
                          (fun x => x ≠ ')')).tail := by
                      cases h; exact ⟨rfl, rfl⟩
                    have hs1 : (t.takeWhile (fun x => x ≠ ']')).length +
                        (t.dropWhile (fun x => x ≠ ']')).length = t.length := by
                      rw [← List.length_append, List.takeWhile_append_dropWhile]
                    have hs2 : ((((t.dropWhile (fun x => x ≠ ']')).tail).tail).takeWhile
                          (fun x => x ≠ ')')).length +
                        ((((t.dropWhile (fun x => x ≠ ']')).tail).tail).dropWhile
                          (fun x => x ≠ ')')).length =
                        (((t.dropWhile (fun x => x ≠ ']')).tail).tail).length := by
                      rw [← List.length_append, List.takeWhile_append_dropWhile]
                    have hp2 : 1 ≤ (t.dropWhile (fun x => x ≠ ']')).length :=
                      List.length_pos.mpr h2
                    have hp3 : 1 ≤ ((t.dropWhile (fun x => x ≠ ']')).tail).length :=
                      List.length_pos.mpr h3
                    have hp6 : 1 ≤ ((((t.dropWhile (fun x => x ≠ ']')).tail).tail).dropWhile
                        (fun x => x ≠ ')')).length :=
                      List.length_pos.mpr h6
                    have ht1 : ((t.dropWhile (fun x => x ≠ ']')).tail).length =
                        (t.dropWhile (fun x => x ≠ ']')).length - 1 := List.length_tail _
                    have ht2 : (((t.dropWhile (fun x => x ≠ ']')).tail).tail).length =
                        ((t.dropWhile (fun x => x ≠ ']')).tail).length - 1 := List.length_tail _
                    have ht3 : (((((t.dropWhile (fun x => x ≠ ']')).tail).tail).dropWhile
                          (fun x => x ≠ ')')).tail).length =
                        ((((t.dropWhile (fun x => x ≠ ']')).tail).tail).dropWhile
                          (fun x => x ≠ ')')).length - 1 := List.length_tail _
                    rw [ho.1, ho.2, ht3]
                    simp only [List.length_cons, List.length_nil]
                    omega
              · rw [if_neg h4] at h; exact absurd h (by simp)
        · rw [hc0, tryImage_ne2 c1 t hc1] at h
          exact absurd h (by simp)
      · rw [tryImage_ne1 c0 (c1 :: t) hc0] at h
        exact absurd h (by simp)

/-- Right-append monotonicity for the image scanner. -/
theorem tryImage_mono : ∀ (u v0 : Str), tryImage u ≠ none → tryImage (u ++ v0) ≠ none := by
  intro u v0 h
  cases u with
  | nil => exact absurd rfl h
  | cons c0 l =>
    cases l with
    | nil => exact absurd rfl h
    | cons c1 t =>
      by_cases hc0 : c0 = '!'
      · by_cases hc1 : c1 = '['
        · rw [hc0, hc1] at h
          rw [List.cons_append, List.cons_append, hc0, hc1]
          rw [tryImage_char t] at h
          by_cases h2 : t.dropWhile (fun x => x ≠ ']') = []
          · rw [if_pos h2] at h; exact absurd rfl h
          · rw [if_neg h2] at h
            by_cases h3 : (t.dropWhile (fun x => x ≠ ']')).tail = []
            · rw [if_pos h3] at h; exact absurd rfl h
            · rw [if_neg h3] at h
              by_cases h4 : ((t.dropWhile (fun x => x ≠ ']')).tail).headD ']' = '('
              · rw [if_pos h4] at h
                obtain ⟨d0, r2, hdw⟩ : ∃ d0 r2, t.dropWhile (fun x => x ≠ ']') = d0 :: r2 := by
                  cases hx : t.dropWhile (fun x => x ≠ ']') with
                  | nil => exact absurd hx h2
                  | cons d0 r2 => exact ⟨d0, r2, rfl⟩
                have hd0 : d0 = ']' := by
                  have := dropWhile_head_false (p := fun y => decide (y ≠ ']')) (l := t) hdw
                  simpa using this
                obtain ⟨d1, v, hr2⟩ : ∃ d1 v, r2 = d1 :: v := by
                  cases hx : r2 with
                  | nil => rw [hdw, hx] at h3; exact absurd rfl h3
                  | cons d1 v => exact ⟨d1, v, rfl⟩
                have hd1 : d1 = '(' := by
                  rw [hdw, hr2] at h4
                  simpa using h4
                rw [hdw, hr2] at h
                simp only [List.tail_cons] at h
                unfold linkTail at h
                by_cases h5 : v.takeWhile (fun x => x ≠ ')') = []
                · rw [if_pos h5] at h; exact absurd rfl h
                · rw [if_neg h5] at h
                  by_cases h6 : v.dropWhile (fun x => x ≠ ')') = []
                  · rw [if_pos h6] at h; exact absurd rfl h
                  · obtain ⟨e0, w, hvd⟩ : ∃ e0 w, v.dropWhile (fun x => x ≠ ')') = e0 :: w := by
                      cases hx : v.dropWhile (fun x => x ≠ ')') with
                      | nil => exact absurd hx h6
                      | cons e0 w => exact ⟨e0, w, rfl⟩
                    have he0 : e0 = ')' := by
                      have := dropWhile_head_false (p := fun y => decide (y ≠ ')')) (l := v) hvd
                      simpa using this
                    have hall1 : ∀ x ∈ t.takeWhile (fun x => x ≠ ']'),
                        (fun y => decide (y ≠ ']')) x = true :=
                      fun x hx => mem_takeWhile_pred (p := fun y => decide (y ≠ ']')) (l := t) hx
                    have ht : t.takeWhile (fun x => x ≠ ']') ++ (d0 :: r2) = t := by
                      rw [← hdw]; exact List.takeWhile_append_dropWhile _ _
                    have hdw2 : ((t ++ v0).dropWhile (fun x => x ≠ ']')) = d0 :: (r2 ++ v0) := by
                      conv_lhs => rw [← ht, List.append_assoc, List.cons_append]
                      exact dropWhile_append_of_all hall1 (by simp [hd0])
                    rw [tryImage_char (t ++ v0), hdw2, if_neg (by simp)]
                    rw [hr2]
                    simp only [List.cons_append, List.tail_cons, List.headD_cons]
                    rw [if_neg (List.cons_ne_nil _ _), if_pos hd1]
                    have hall2 : ∀ x ∈ v.takeWhile (fun x => x ≠ ')'),
                        (fun y => decide (y ≠ ')')) x = true :=
                      fun x hx => mem_takeWhile_pred (p := fun y => decide (y ≠ ')')) (l := v) hx
                    have hv : v.takeWhile (fun x => x ≠ ')') ++ (e0 :: w) = v := by
                      rw [← hvd]; exact List.takeWhile_append_dropWhile _ _
                    have hvtw2 : ((v ++ v0).takeWhile (fun x => x ≠ ')')) =
                        v.takeWhile (fun x => x ≠ ')') := by
                      conv_lhs => rw [← hv, List.append_assoc, List.cons_append]
                      exact takeWhile_append_of_all hall2 (by simp [he0])
                    have hvdw2 : ((v ++ v0).dropWhile (fun x => x ≠ ')')) = e0 :: (w ++ v0) := by
                      conv_lhs => rw [← hv, List.append_assoc, List.cons_append]
                      exact dropWhile_append_of_all hall2 (by simp [he0])
                    unfold linkTail
                    rw [hvtw2, hvdw2, if_neg h5, if_neg (by simp)]
                    simp
              · rw [if_neg h4] at h; exact absurd rfl h
        · rw [hc0] at h; exact absurd (tryImage_ne2 c1 t hc1) h
      · exact absurd (tryImage_ne1 c0 (c1 :: t) hc0) h

/-- Whitespace failure for the image scanner. -/
theorem tryImage_ws : ∀ (c : Char) (l : Str), isWs c = true → tryImage (c :: l) = none :=
  fun c l hc => tryImage_ne1 c l (ws_ne_of hc (by decide))

/-- Failure of the image scanner survives squeezing. -/
theorem tryImage_squeeze : ∀ (u : Str), tryImage u = none → tryImage (squeezeWs u) = none := by
  intro u h
  cases u with
  | nil => exact h
  | cons c l =>
    by_cases hcw : isWs c = true
    · obtain ⟨w, hw⟩ := squeezeWs_ws_head l c hcw
      rw [hw]
      exact tryImage_ne1 ' ' w (by decide)
    · have hc' : isWs c = false := by revert hcw; cases isWs c <;> simp
      rw [squeezeWs_cons_nws l hc']
      by_cases hc : c = '!'
      · rw [hc] at h ⊢
        cases l with
        | nil => rfl
        | cons c1 m =>
          by_cases hc1w : isWs c1 = true
          · obtain ⟨w2, hw2⟩ := squeezeWs_ws_head m c1 hc1w
            rw [hw2]
            exact tryImage_ne2 ' ' w2 (by decide)
          · have hc1' : isWs c1 = false := by revert hc1w; cases isWs c1 <;> simp
            rw [squeezeWs_cons_nws m hc1']
            by_cases hc1 : c1 = '['
            · rw [hc1] at h ⊢
              rw [tryImage_char m] at h
              rw [tryImage_char (squeezeWs m)]
              have hws1 : ∀ x, isWs x = true → (fun y => decide (y ≠ ']')) x = true := by
                intro x hx
                simp only [decide_eq_true_eq]
                exact ws_ne_of hx (by decide)
              have htw := takeWhile_squeezeWs_comm (fun y => decide (y ≠ ']')) hws1 m
              have hdwc := dropWhile_squeezeWs_comm (fun y => decide (y ≠ ']')) hws1 m
              apply ifchain3_none_tail
              intro n2 n3 n4
              have h2 : ¬ (m.dropWhile (fun x => x ≠ ']') = []) := by
                intro hx; apply n2; rw [hdwc, hx]; rfl
              obtain ⟨d0, r2, hdw⟩ : ∃ d0 r2, m.dropWhile (fun x => x ≠ ']') = d0 :: r2 := by
                cases hx : m.dropWhile (fun x => x ≠ ']') with
                | nil => exact absurd hx h2
                | cons d0 r2 => exact ⟨d0, r2, rfl⟩
              have hd0 : d0 = ']' := by
                have := dropWhile_head_false (p := fun y => decide (y ≠ ']')) (l := m) hdw
                simpa using this
              have hsqdw : (squeezeWs m).dropWhile (fun x => x ≠ ']') = ']' :: squeezeWs r2 := by
                rw [hdwc, hdw, hd0, squeezeWs_cons_nws r2 (by decide)]
              obtain ⟨d1, v, hr2⟩ : ∃ d1 v, r2 = d1 :: v := by
                cases hx : r2 with
                | nil => exfalso; apply n3; rw [hsqdw, hx]; rfl
                | cons d1 v => exact ⟨d1, v, rfl⟩
              have hd1nw : isWs d1 = false := by
                by_contra hd1w
                have hd1w' : isWs d1 = true := by revert hd1w; cases isWs d1 <;> simp
                obtain ⟨w2, hw2⟩ := squeezeWs_ws_head v d1 hd1w'
                rw [hsqdw, hr2, hw2] at n4
                simp only [List.tail_cons, List.headD_cons] at n4
                exact absurd n4 (by decide)
              have hsq2 : squeezeWs r2 = d1 :: squeezeWs v := by
                rw [hr2, squeezeWs_cons_nws v hd1nw]
              have hd1 : d1 = '(' := by
                rw [hsqdw, hsq2] at n4
                simpa using n4
              rw [if_neg h2, hdw, hr2] at h
              simp only [List.tail_cons, List.headD_cons] at h
              rw [if_neg (List.cons_ne_nil _ _), if_pos hd1] at h
              rw [hsqdw, hsq2]
              simp only [List.tail_cons]
              have hws2 : ∀ x, isWs x = true → (fun y => decide (y ≠ ')')) x = true := by
                intro x hx
                simp only [decide_eq_true_eq]
                exact ws_ne_of hx (by decide)
              have hvtw := takeWhile_squeezeWs_comm (fun y => decide (y ≠ ')')) hws2 v
              have hvdw := dropWhile_squeezeWs_comm (fun y => decide (y ≠ ')')) hws2 v
              unfold linkTail at h ⊢
              rw [hvtw, hvdw]
              by_cases h5 : v.takeWhile (fun x => x ≠ ')') = []
              · rw [h5, if_pos (show squeezeWs ([] : Str) = [] from rfl)]
              · rw [if_neg h5] at h
                by_cases h6 : v.dropWhile (fun x => x ≠ ')') = []
                · rw [h6]
                  by_cases ha : squeezeWs (v.takeWhile (fun x => x ≠ ')')) = []
                  · rw [if_pos ha]
                  · rw [if_neg ha, if_pos (show squeezeWs ([] : Str) = [] from rfl)]
                · rw [if_neg h6] at h
                  exact absurd h (by simp)
            · exact tryImage_ne2 c1 (squeezeWs m) hc1
      · exact tryImage_ne1 c (squeezeWs l) hc

/-- Appending a non-whitespace character commutes with squeezing. -/
theorem squeezeWs_snoc {c : Char} (hc : isWs c = false) :
    ∀ (x : Str), squeezeWs (x ++ [c]) = squeezeWs x ++ [c] := by
  intro x
  induction x with
  | nil => rw [List.nil_append, squeezeWs_cons_nws [] hc]; rfl
  | cons a x ih =>
    by_cases ha : isWs a = true
    · cases x with
      | nil =>
        rw [List.cons_append, List.nil_append, squeezeWs_ws_nws [] ha hc,
          squeezeWs_ws_nil ha, squeezeWs_cons_nws [] hc]
        rfl
      | cons b x2 =>
        by_cases hb : isWs b = true
        · rw [List.cons_append, List.cons_append, squeezeWs_ws_ws (x2 ++ [c]) ha hb,
            squeezeWs_ws_ws x2 ha hb, ← List.cons_append, ih]
        · have hb' : isWs b = false := by revert hb; cases isWs b <;> simp
          rw [List.cons_append, List.cons_append, squeezeWs_ws_nws (x2 ++ [c]) ha hb',
            squeezeWs_ws_nws x2 ha hb', ← List.cons_append, ih]
          rfl
    · have ha' : isWs a = false := by revert ha; cases isWs a <;> simp
      rw [List.cons_append, squeezeWs_cons_nws (x ++ [c]) ha', ih,
        squeezeWs_cons_nws x ha']
      rfl

/-- Squeezing a string that ends in whitespace yields a string that ends in a
space. -/
theorem squeezeWs_snoc_ws {d : Char} (hd : isWs d = true) :
    ∀ (x : Str), ∃ z, squeezeWs (x ++ [d]) = z ++ [' '] := by
  intro x
  induction x with
  | nil => exact ⟨[], by rw [List.nil_append, squeezeWs_ws_nil hd]; rfl⟩
  | cons a x ih =>
    by_cases ha : isWs a = true
    · cases x with
      | nil =>
        exact ⟨[], by rw [List.cons_append, List.nil_append, squeezeWs_ws_ws [] ha hd,
          squeezeWs_ws_nil hd]; rfl⟩
      | cons b x2 =>
        by_cases hb : isWs b = true
        · obtain ⟨z, hz⟩ := ih
          exact ⟨z, by rw [List.cons_append, List.cons_append,
            squeezeWs_ws_ws (x2 ++ [d]) ha hb, ← List.cons_append, hz]⟩
        · have hb' : isWs b = false := by revert hb; cases isWs b <;> simp
          obtain ⟨z, hz⟩ := ih
          exact ⟨' ' :: z, by rw [List.cons_append, List.cons_append,
            squeezeWs_ws_nws (x2 ++ [d]) ha hb', ← List.cons_append, hz]; rfl⟩
    · have ha' : isWs a = false := by revert ha; cases isWs a <;> simp
      obtain ⟨z, hz⟩ := ih
      exact ⟨a :: z, by rw [List.cons_append, squeezeWs_cons_nws (x ++ [d]) ha', hz]; rfl⟩

/-- A squeezed string ending in a non-whitespace character comes from a
string ending in that same character. -/
theorem squeezeWs_snoc_inv {c : Char} (hc : isWs c = false) :
    ∀ (q z : Str), squeezeWs q = z ++ [c] → ∃ x, q = x ++ [c] ∧ squeezeWs x = z := by
  intro q
  induction q using List.reverseRecOn with
  | nil =>
    intro z h
    exact absurd h.symm (List.append_ne_nil_of_right_ne_nil z (by simp))
  | append_singleton x d _ih =>
    intro z h
    by_cases hd : isWs d = true
    · obtain ⟨z2, hz2⟩ := squeezeWs_snoc_ws hd x
      rw [hz2] at h
      have hr := congrArg List.reverse h
      simp only [List.reverse_append, List.reverse_cons, List.reverse_nil,
        List.nil_append, List.cons_append, List.cons.injEq] at hr
      exact absurd hr.1 (ws_ne_of (show isWs ' ' = true by decide) hc)
    · have hd' : isWs d = false := by revert hd; cases isWs d <;> simp
      rw [squeezeWs_snoc hd' x] at h
      have hr := congrArg List.reverse h
      simp only [List.reverse_append, List.reverse_cons, List.reverse_nil,
        List.nil_append, List.cons_append, List.cons.injEq,
        List.reverse_inj] at hr
      exact ⟨x, by rw [hr.1], hr.2⟩

/-- A two-way guard chain with an arbitrary tail is none when the tail is
none under the surviving guards. -/
theorem ifchain2_none_tail {α : Type} {A B : Prop}
    [Decidable A] [Decidable B] {x : Option α}
    (h : ¬ A → B → x = none) :
    (if A then none else if B then x else none) = none := by
  by_cases hA : A
  · simp [hA]
  · by_cases hB : B
    · rw [if_neg hA, if_pos hB]
      exact h hA hB
    · simp [hA, hB]

/-- First-character failure for the comment scanner. -/
theorem tryComment_ne1 : ∀ (c : Char) (l : Str), c ≠ '<' → tryComment (c :: l) = none := by
  intro c l hc
  cases l with
  | nil => rfl
  | cons a l2 =>
    cases l2 with
    | nil => rfl
    | cons b l3 =>
      cases l3 with
      | nil => rfl
      | cons e l4 => simp [tryComment, hc]

/-- Second-character failure for the comment scanner. -/
theorem tryComment_ne2 : ∀ (c : Char) (l : Str), c ≠ '!' →
    tryComment ('<' :: c :: l) = none := by
  intro c l hc
  cases l with
  | nil => rfl
  | cons b l3 =>
    cases l3 with
    | nil => rfl
    | cons e l4 => simp [tryComment, hc]

/-- Third-character failure for the comment scanner. -/
theorem tryComment_ne3 : ∀ (c : Char) (l : Str), c ≠ '-' →
    tryComment ('<' :: '!' :: c :: l) = none := by
  intro c l hc
  cases l with
  | nil => rfl
  | cons e l4 => simp [tryComment, hc]

/-- Fourth-character failure for the comment scanner. -/
theorem tryComment_ne4 : ∀ (c : Char) (l : Str), c ≠ '-' →
    tryComment ('<' :: '!' :: '-' :: c :: l) = none := by
  intro c l hc
  simp [tryComment, hc]

/-- Definitional unfolding of the comment scanner at its four-character
prefix. -/
theorem tryComment_def : ∀ t, tryComment ('<' :: '!' :: '-' :: '-' :: t) =
    match t.dropWhile (fun x => x ≠ '>') with
    | d0 :: u =>
      if d0 = '>' then
        match (t.takeWhile (fun x => x ≠ '>')).reverse with
        | e0 :: e1 :: mm =>
          if e0 = '-' ∧ e1 = '-' ∧ mm ≠ [] then some ([], u) else none
        | _ => none
      else none
    | [] => none :=
  fun _ => rfl

/-- Match-free characterisation of the comment scanner. -/
theorem tryComment_char : ∀ t, tryComment ('<' :: '!' :: '-' :: '-' :: t) =
    if t.dropWhile (fun x => x ≠ '>') = [] then none
    else if ((t.takeWhile (fun x => x ≠ '>')).reverse).headD ' ' = '-'
        ∧ (((t.takeWhile (fun x => x ≠ '>')).reverse).tail).headD ' ' = '-'
        ∧ (((t.takeWhile (fun x => x ≠ '>')).reverse).tail).tail ≠ [] then
      some ([], (t.dropWhile (fun x => x ≠ '>')).tail)
    else none := by
  intro t
  rw [tryComment_def t]
  cases hdw : t.dropWhile (fun x => x ≠ '>') with
  | nil => rw [if_pos rfl]
  | cons d0 u =>
    have hd0 : d0 = '>' := by
      have := dropWhile_head_false (p := fun y => decide (y ≠ '>')) (l := t) hdw
      simpa using this
    subst hd0
    show (match (t.takeWhile (fun x => x ≠ '>')).reverse with
      | e0 :: e1 :: mm =>
        if e0 = '-' ∧ e1 = '-' ∧ mm ≠ [] then some (([] : Str), u) else none
      | _ => none) = _
    rw [if_neg (List.cons_ne_nil _ _)]
    simp only [List.tail_cons]
    cases hqr : (t.takeWhile (fun x => x ≠ '>')).reverse with
    | nil => rw [if_neg (by simp)]
    | cons e0 q1 =>
      cases q1 with
      | nil => rw [if_neg (by simp)]
      | cons e1 mm =>
        simp only [List.headD_cons, List.tail_cons]

/-- Shrinking for the comment scanner. -/
theorem tryComment_shrink : ∀ (cs o r : Str), tryComment cs = some (o, r) →
    o.length + r.length < cs.length := by
  intro cs o r h
  cases cs with
  | nil => exact absurd h (by simp [tryComment])
  | cons c0 l =>
    cases l with
    | nil => exact absurd h (by simp [tryComment])
    | cons c1 l2 =>
      cases l2 with
      | nil => exact absurd h (by simp [tryComment])
      | cons c2 l3 =>
        cases l3 with
        | nil => exact absurd h (by simp [tryComment])
        | cons c3 t =>
          by_cases hc0 : c0 = '<'
          · by_cases hc1 : c1 = '!'
            · by_cases hc2 : c2 = '-'
              · by_cases hc3 : c3 = '-'
                · rw [hc0, hc1, hc2, hc3, tryComment_char t] at h
                  by_cases h1 : t.dropWhile (fun x => x ≠ '>') = []
                  · rw [if_pos h1] at h; exact absurd h (by simp)
                  · rw [if_neg h1] at h
                    by_cases hcond : ((t.takeWhile (fun x => x ≠ '>')).reverse).headD ' ' = '-'
                        ∧ (((t.takeWhile (fun x => x ≠ '>')).reverse).tail).headD ' ' = '-'
                        ∧ (((t.takeWhile (fun x => x ≠ '>')).reverse).tail).tail ≠ []
                    · rw [if_pos hcond] at h
                      have ho : o = ([] : Str) ∧
                          r = (t.dropWhile (fun x => x ≠ '>')).tail := by
                        cases h; exact ⟨rfl, rfl⟩
                      have hs1 : (t.takeWhile (fun x => x ≠ '>')).length +
                          (t.dropWhile (fun x => x ≠ '>')).length = t.length := by
                        rw [← List.length_append, List.takeWhile_append_dropWhile]
                      have hp1 : 1 ≤ (t.dropWhile (fun x => x ≠ '>')).length :=
                        List.length_pos.mpr h1
                      have ht1 : ((t.dropWhile (fun x => x ≠ '>')).tail).length =
                          (t.dropWhile (fun x => x ≠ '>')).length - 1 := List.length_tail _
                      rw [ho.1, ho.2, ht1]
                      simp only [List.length_cons, List.length_nil]
                      omega
                    · rw [if_neg hcond] at h; exact absurd h (by simp)
                · rw [hc0, hc1, hc2, tryComment_ne4 c3 t hc3] at h
                  exact absurd h (by simp)
              · rw [hc0, hc1, tryComment_ne3 c2 (c3 :: t) hc2] at h
                exact absurd h (by simp)
            · rw [hc0, tryComment_ne2 c1 (c2 :: c3 :: t) hc1] at h
              exact absurd h (by simp)
          · rw [tryComment_ne1 c0 (c1 :: c2 :: c3 :: t) hc0] at h
            exact absurd h (by simp)

/-- Right-append monotonicity for the comment scanner. -/
theorem tryComment_mono : ∀ (u v0 : Str), tryComment u ≠ none → tryComment (u ++ v0) ≠ none := by
  intro u v0 h
  cases u with
  | nil => exact absurd rfl h
  | cons c0 l =>
    cases l with
    | nil => exact absurd rfl h
    | cons c1 l2 =>
      cases l2 with
      | nil => exact absurd rfl h
      | cons c2 l3 =>
        cases l3 with
        | nil => exact absurd rfl h
        | cons c3 t =>
          by_cases hc0 : c0 = '<'
          · by_cases hc1 : c1 = '!'
            · by_cases hc2 : c2 = '-'
              · by_cases hc3 : c3 = '-'
                · rw [hc0, hc1, hc2, hc3] at h
                  rw [List.cons_append, List.cons_append, List.cons_append,
                    List.cons_append, hc0, hc1, hc2, hc3]
                  rw [tryComment_char t] at h
                  by_cases h1 : t.dropWhile (fun x => x ≠ '>') = []
                  · rw [if_pos h1] at h; exact absurd rfl h
                  · rw [if_neg h1] at h
                    by_cases hcond : ((t.takeWhile (fun x => x ≠ '>')).reverse).headD ' ' = '-'
                        ∧ (((t.takeWhile (fun x => x ≠ '>')).reverse).tail).headD ' ' = '-'
                        ∧ (((t.takeWhile (fun x => x ≠ '>')).reverse).tail).tail ≠ []
                    · obtain ⟨d0, u2, hdw⟩ : ∃ d0 u2,
                          t.dropWhile (fun x => x ≠ '>') = d0 :: u2 := by
                        cases hx : t.dropWhile (fun x => x ≠ '>') with
                        | nil => exact absurd hx h1
                        | cons d0 u2 => exact ⟨d0, u2, rfl⟩
                      have hd0 : d0 = '>' := by
                        have := dropWhile_head_false
                          (p := fun y => decide (y ≠ '>')) (l := t) hdw
                        simpa using this
                      have hall1 : ∀ x ∈ t.takeWhile (fun x => x ≠ '>'),
                          (fun y => decide (y ≠ '>')) x = true :=
                        fun x hx => mem_takeWhile_pred (p := fun y => decide (y ≠ '>')) (l := t) hx
                      have ht : t.takeWhile (fun x => x ≠ '>') ++ (d0 :: u2) = t := by
                        rw [← hdw]; exact List.takeWhile_append_dropWhile _ _
                      have htw2 : ((t ++ v0).takeWhile (fun x => x ≠ '>')) =
                          t.takeWhile (fun x => x ≠ '>') := by
                        conv_lhs => rw [← ht, List.append_assoc, List.cons_append]
                        exact takeWhile_append_of_all hall1 (by simp [hd0])
                      have hdw2 : ((t ++ v0).dropWhile (fun x => x ≠ '>')) =
                          d0 :: (u2 ++ v0) := by
                        conv_lhs => rw [← ht, List.append_assoc, List.cons_append]
                        exact dropWhile_append_of_all hall1 (by simp [hd0])
                      rw [tryComment_char (t ++ v0), htw2, hdw2, if_neg (by simp),
                        if_pos hcond]
                      simp
                    · rw [if_neg hcond] at h; exact absurd rfl h
                · rw [hc0, hc1, hc2] at h
                  exact absurd (tryComment_ne4 c3 t hc3) h
              · rw [hc0, hc1] at h
                exact absurd (tryComment_ne3 c2 (c3 :: t) hc2) h
            · rw [hc0] at h
              exact absurd (tryComment_ne2 c1 (c2 :: c3 :: t) hc1) h
          · exact absurd (tryComment_ne1 c0 (c1 :: c2 :: c3 :: t) hc0) h

/-- Whitespace failure for the comment scanner. -/
theorem tryComment_ws : ∀ (c : Char) (l : Str), isWs c = true → tryComment (c :: l) = none :=
  fun c l hc => tryComment_ne1 c l (ws_ne_of hc (by decide))

/-- Failure of the comment scanner survives squeezing. -/
theorem tryComment_squeeze : ∀ (u : Str), tryComment u = none →
    tryComment (squeezeWs u) = none := by
  intro u h
  cases u with
  | nil => exact h
  | cons c0 l =>
    by_cases hw0 : isWs c0 = true
    · obtain ⟨w, hw⟩ := squeezeWs_ws_head l c0 hw0
      rw [hw]
      exact tryComment_ne1 ' ' w (by decide)
    · have hc0' : isWs c0 = false := by revert hw0; cases isWs c0 <;> simp
      rw [squeezeWs_cons_nws l hc0']
      by_cases hc0 : c0 = '<'
      · rw [hc0] at h ⊢
        cases l with
        | nil => rfl
        | cons c1 m =>
          by_cases hw1 : isWs c1 = true
          · obtain ⟨w, hw⟩ := squeezeWs_ws_head m c1 hw1
            rw [hw]
            exact tryComment_ne2 ' ' w (by decide)
          · have hc1' : isWs c1 = false := by revert hw1; cases isWs c1 <;> simp
            rw [squeezeWs_cons_nws m hc1']
            by_cases hc1 : c1 = '!'
            · rw [hc1] at h ⊢
              cases m with
              | nil => rfl
              | cons c2 m2 =>
                by_cases hw2 : isWs c2 = true
                · obtain ⟨w, hw⟩ := squeezeWs_ws_head m2 c2 hw2
                  rw [hw]
                  exact tryComment_ne3 ' ' w (by decide)
                · have hc2' : isWs c2 = false := by revert hw2; cases isWs c2 <;> simp
                  rw [squeezeWs_cons_nws m2 hc2']
                  by_cases hc2 : c2 = '-'
                  · rw [hc2] at h ⊢
                    cases m2 with
                    | nil => rfl
                    | cons c3 m3 =>
                      by_cases hw3 : isWs c3 = true
                      · obtain ⟨w, hw⟩ := squeezeWs_ws_head m3 c3 hw3
                        rw [hw]
                        exact tryComment_ne4 ' ' w (by decide)
                      · have hc3' : isWs c3 = false := by revert hw3; cases isWs c3 <;> simp
                        rw [squeezeWs_cons_nws m3 hc3']
                        by_cases hc3 : c3 = '-'
                        · rw [hc3] at h ⊢
                          rw [tryComment_char m3] at h
                          rw [tryComment_char (squeezeWs m3)]
                          have hws1 : ∀ x, isWs x = true →
                              (fun y => decide (y ≠ '>')) x = true := by
                            intro x hx
                            simp only [decide_eq_true_eq]
                            exact ws_ne_of hx (by decide)
                          have htw := takeWhile_squeezeWs_comm
                            (fun y => decide (y ≠ '>')) hws1 m3
                          have hdwc := dropWhile_squeezeWs_comm
                            (fun y => decide (y ≠ '>')) hws1 m3
                          apply ifchain2_none_tail
                          intro nA hB
                          exfalso
                          have h1 : ¬ (m3.dropWhile (fun x => x ≠ '>') = []) := by
                            intro hx; apply nA; rw [hdwc, hx]; rfl
                          rw [htw] at hB
                          obtain ⟨e0, q1, hq⟩ : ∃ e0 q1,
                              (squeezeWs (m3.takeWhile (fun x => x ≠ '>'))).reverse =
                                e0 :: q1 := by
                            cases hx : (squeezeWs
                                (m3.takeWhile (fun x => x ≠ '>'))).reverse with
                            | nil => rw [hx] at hB; exact absurd hB.1 (by decide)
                            | cons e0 q1 => exact ⟨e0, q1, rfl⟩
                          obtain ⟨e1, mm, hq1⟩ : ∃ e1 mm, q1 = e1 :: mm := by
                            cases hx : q1 with
                            | nil =>
                              rw [hq, hx] at hB
                              exact absurd hB.2.1
                                (by simp only [List.tail_cons, List.headD_nil]; decide)
                            | cons e1 mm => exact ⟨e1, mm, rfl⟩
                          rw [hq, hq1] at hB
                          simp only [List.headD_cons, List.tail_cons] at hB
                          obtain ⟨he0, he1, hmm⟩ := hB
                          have hsq : squeezeWs (m3.takeWhile (fun x => x ≠ '>')) =
                              (mm.reverse ++ ['-']) ++ ['-'] := by
                            have hrr := congrArg List.reverse hq
                            rw [List.reverse_reverse] at hrr
                            rw [hrr, hq1, he0, he1]
                            simp
                          obtain ⟨x1, hx1, hsx1⟩ :=
                            squeezeWs_snoc_inv (by decide) _ _ hsq
                          obtain ⟨x2, hx2, hsx2⟩ :=
                            squeezeWs_snoc_inv (by decide) _ _ hsx1
                          have hx2ne : x2 ≠ [] := by
                            intro hx
                            rw [hx] at hsx2
                            have hre : mm.reverse = [] := hsx2.symm
                            exact hmm (by simpa using hre)
                          have hqorig : m3.takeWhile (fun x => x ≠ '>') =
                              (x2 ++ ['-']) ++ ['-'] := by
                            rw [hx1, hx2]
                          have hrev : (m3.takeWhile (fun x => x ≠ '>')).reverse =
                              '-' :: '-' :: x2.reverse := by
                            rw [hqorig]
                            simp
                          have hcnd : ((m3.takeWhile (fun x => x ≠ '>')).reverse).headD
                                ' ' = '-'
                              ∧ (((m3.takeWhile (fun x => x ≠ '>')).reverse).tail).headD
                                ' ' = '-'
                              ∧ (((m3.takeWhile
                                (fun x => x ≠ '>')).reverse).tail).tail ≠ [] := by
                            rw [hrev]
                            simp only [List.headD_cons, List.tail_cons]
                            exact ⟨trivial, trivial, by simp [hx2ne]⟩
                          rw [if_neg h1, if_pos hcnd] at h
                          exact absurd h (by simp)
                        · exact tryComment_ne4 c3 (squeezeWs m3) hc3
                  · exact tryComment_ne3 c2 (squeezeWs m2) hc2
            · exact tryComment_ne2 c1 (squeezeWs m) hc1
      · exact tryComment_ne1 c0 (squeezeWs l) hc0

/-- On a markup-free string the cleaner is just the whitespace collapse. -/
theorem clean_eq_collapse_of_noMarkup (s : Str) (h : noMarkup s) :
    clean_markdown_format s = collapseWs s := by
  by_cases hs : s = []
  · unfold clean_markdown_format
    rw [if_pos hs, hs]
    rfl
  · unfold clean_markdown_format
    rw [if_neg hs]
    obtain ⟨h1, h2, h3, h4, h5, h6, h7, h8⟩ := h
    rw [h1, h2, h3, h4, h5, h6, h7, h8]

/-- Markup-freeness transfers through the whitespace collapse. -/
theorem noMarkup_collapseWs (s : Str) (h : noMarkup s) : noMarkup (collapseWs s) := by
  obtain ⟨h1, h2, h3, h4, h5, h6, h7, h8⟩ := h
  have n1 : NoM tryLink s :=
    NoM_of_subBy_eq_self tryLink tryLink_shrink rfl s.length s (le_refl _) h1
  have n2 : NoM tryImage s :=
    NoM_of_subBy_eq_self tryImage tryImage_shrink rfl s.length s (le_refl _) h2
  have n3 : NoM tryBold s :=
    NoM_of_subBy_eq_self tryBold tryBold_shrink rfl s.length s (le_refl _) h3
  have n4 : NoM tryItalic s :=
    NoM_of_subBy_eq_self tryItalic tryItalic_shrink rfl s.length s (le_refl _) h4
  have n5 : NoM tryCode s :=
    NoM_of_subBy_eq_self tryCode tryCode_shrink rfl s.length s (le_refl _) h5
  have n6 : NoM tryStrike s :=
    NoM_of_subBy_eq_self tryStrike tryStrike_shrink rfl s.length s (le_refl _) h6
  have n7 : NoM tryTag s :=
    NoM_of_subBy_eq_self tryTag tryTag_shrink rfl s.length s (le_refl _) h7
  have n8 : NoM tryComment s :=
    NoM_of_subBy_eq_self tryComment tryComment_shrink rfl s.length s (le_refl _) h8
  have c1 : NoM tryLink (collapseWs s) :=
    NoM_collapseWs rfl tryLink_ws tryLink_squeeze tryLink_mono n1
  have c2 : NoM tryImage (collapseWs s) :=
    NoM_collapseWs rfl tryImage_ws tryImage_squeeze tryImage_mono n2
  have c3 : NoM tryBold (collapseWs s) :=
    NoM_collapseWs rfl tryBold_ws tryBold_squeeze tryBold_mono n3
  have c4 : NoM tryItalic (collapseWs s) :=
    NoM_collapseWs rfl tryItalic_ws tryItalic_squeeze tryItalic_mono n4
  have c5 : NoM tryCode (collapseWs s) :=
    NoM_collapseWs rfl tryCode_ws tryCode_squeeze tryCode_mono n5
  have c6 : NoM tryStrike (collapseWs s) :=
    NoM_collapseWs rfl tryStrike_ws tryStrike_squeeze tryStrike_mono n6
  have c7 : NoM tryTag (collapseWs s) :=
    NoM_collapseWs rfl tryTag_ws tryTag_squeeze tryTag_mono n7
  have c8 : NoM tryComment (collapseWs s) :=
    NoM_collapseWs rfl tryComment_ws tryComment_squeeze tryComment_mono n8
  exact ⟨subBy_eq_self_of_NoM _ _ c1, subBy_eq_self_of_NoM _ _ c2,
    subBy_eq_self_of_NoM _ _ c3, subBy_eq_self_of_NoM _ _ c4,
    subBy_eq_self_of_NoM _ _ c5, subBy_eq_self_of_NoM _ _ c6,
    subBy_eq_self_of_NoM _ _ c7, subBy_eq_self_of_NoM _ _ c8⟩

/-- C8: on a markup-free string (one on which each of the cleaner's eight
markup substitutions is the identity) the Format Cleaner is idempotent:
applying it twice yields the same result as applying it once. -/
theorem claim8_idempotent (s : Str) (h : noMarkup s) :
    clean_markdown_format (clean_markdown_format s) = clean_markdown_format s := by
  have hc := clean_eq_collapse_of_noMarkup s h
  have h2 := noMarkup_collapseWs s h
  have hc2 := clean_eq_collapse_of_noMarkup (collapseWs s) h2
  rw [hc, hc2, collapseWs_idem]

/-- Witness for C8 at a concrete markup-free string. -/
theorem claim8_witness :
    noMarkup ("Hello world".data) ∧
    clean_markdown_format (clean_markdown_format ("Hello world".data)) =
      clean_markdown_format ("Hello world".data) :=
  ⟨by unfold noMarkup; decide, claim8_idempotent _ (by unfold noMarkup; decide)⟩

/-- C2 amended: an image reference with EMPTY alt text is removed entirely
by the Format Cleaner (for non-empty alt text the link rule fires first and
leaves the bang and the alt text behind, as the counterexample shows). -/
theorem claim2_amended : ∀ (tgt : Str), tgt ≠ [] → (∀ c ∈ tgt, c ≠ ')' ∧ c ≠ ']') →
    clean_markdown_format (("![](".data) ++ tgt ++ (")".data)) = [] := by
  intro tgt hntgt hmem
  show clean_markdown_format ('!' :: '[' :: ']' :: '(' :: (tgt ++ [')'])) = []
  have hNoM : NoM tryLink (tgt ++ [')']) := by
    intro v hv
    cases v with
    | nil => rfl
    | cons c w =>
      by_cases hc : c = '['
      · subst hc
        rw [tryLink_char w]
        have hwsub : ∀ x ∈ w, x ∈ tgt ++ [')'] := fun x hx =>
          (List.IsSuffix.subset hv) (List.mem_cons_of_mem _ hx)
        have hdw : w.dropWhile (fun x => x ≠ ']') = [] := by
          rw [List.dropWhile_eq_nil_iff]
          intro x hx
          simp only [decide_eq_true_eq]
          rcases List.mem_append.mp (hwsub x hx) with h1 | h2
          · exact (hmem x h1).2
          · simp at h2
            rw [h2]
            decide
        by_cases htw : w.takeWhile (fun x => x ≠ ']') = []
        · rw [if_pos htw]
        · rw [if_neg htw, if_pos hdw]
      · exact tryLink_ne c w hc
  have hL : subBy tryLink ('!' :: '[' :: ']' :: '(' :: (tgt ++ [')'])) =
      '!' :: '[' :: ']' :: '(' :: (tgt ++ [')']) := by
    rw [subBy_cons_none (tryLink_ne '!' _ (by decide)),
      subBy_cons_none (show tryLink ('[' :: ']' :: '(' :: (tgt ++ [')'])) = none from rfl),
      subBy_cons_none (tryLink_ne ']' _ (by decide)),
      subBy_cons_none (tryLink_ne '(' _ (by decide)),
      subBy_eq_self_of_NoM tryLink _ hNoM]
  have hall : ∀ c ∈ tgt, (fun y => decide (y ≠ ')')) c = true := by
    intro c hc
    simp only [decide_eq_true_eq]
    exact (hmem c hc).1
  have htw2 : (tgt ++ [')']).takeWhile (fun x => x ≠ ')') = tgt :=
    takeWhile_append_of_all hall (by simp)
  have hdw2 : (tgt ++ [')']).dropWhile (fun x => x ≠ ')') = [')'] :=
    dropWhile_append_of_all hall (by simp)
  have hImg : tryImage ('!' :: '[' :: ']' :: '(' :: (tgt ++ [')'])) = some ([], []) := by
    rw [tryImage_char (']' :: '(' :: (tgt ++ [')']))]
    rw [show (']' :: '(' :: (tgt ++ [')'])).dropWhile (fun x => x ≠ ']') =
      ']' :: '(' :: (tgt ++ [')']) from rfl]
    rw [if_neg (List.cons_ne_nil _ _)]
    simp only [List.tail_cons, List.headD_cons]
    rw [if_neg (List.cons_ne_nil _ _), if_pos trivial]
    unfold linkTail
    rw [htw2, hdw2, if_neg hntgt, if_neg (List.cons_ne_nil _ _)]
    rfl
  have hImgSub : subBy tryImage ('!' :: '[' :: ']' :: '(' :: (tgt ++ [')'])) = [] := by
    rw [subBy_cons_some tryImage_shrink hImg]
    rfl
  unfold clean_markdown_format
  rw [if_neg (List.cons_ne_nil _ _), hL, hImgSub]
  rfl

/-- Witness for the amended C2 at a concrete empty-alt image reference. -/
theorem claim2_amended_witness :
    (("x.png".data : Str) ≠ [] ∧ (∀ c ∈ ("x.png".data : Str), c ≠ ')' ∧ c ≠ ']')) ∧
    clean_markdown_format (("![](".data) ++ ("x.png".data) ++ (")".data)) = [] :=
  ⟨⟨by decide, by decide⟩, claim2_amended ("x.png".data) (by decide) (by decide)⟩
